import Mathlib

/-! Winds-aloft text product decoder (`weather.go`).

A shallow embedding of the decoder of package `avlib`: the component
extractor, the validity-line parser, the altitude-header parser, the cell
decoder and the aggregation loop, followed by the properties established
about them.

Modelling conventions.

* A Go `string` is its sequence of bytes; `GoString` holds one `Char` per
  byte (`len`, slicing, `strings.Index` and `strings.Split` all count bytes).
  Every literal of the source is ASCII.
* Go `int` / `int64` values are `Int`. The only arithmetic performed on them
  is on values bounded by the length of a string or by a two-byte decimal
  field, so no wrap-around can occur.
* A function that can stop with a run-time panic (slice bounds, index out of
  range) returns `Outcome.panic` there; a returned Go `error` is
  `Outcome.error`.
* The `float64` values stored in a cell are `F64`.
-/

namespace Avlib

/-- A Go string, as the list of its bytes. -/
abbrev GoString := List Char

/-! ## Results of Go calls -/

/-- The value carried by the `fmt.Errorf` of `ExtractComponents`: its three
format arguments. -/
structure FormatErr where
  headerIndex : Int
  validFromIndex : Int
  productText : GoString
  deriving DecidableEq, Repr

/-- How a call ends: normally with a value, with a returned `error`, or with a
run-time panic. -/
inductive Outcome (α : Type) where
  | ok (v : α)
  | error (e : FormatErr)
  | panic
  deriving DecidableEq, Repr

/-- Sequencing of calls: the first failure ends the computation. -/
def Outcome.bind {α β : Type} : Outcome α → (α → Outcome β) → Outcome β
  | .ok v, f => f v
  | .error e, _ => .error e
  | .panic, _ => .panic

/-- Whether the call returned normally. -/
def Outcome.isOk {α : Type} : Outcome α → Bool
  | .ok _ => true
  | _ => false

/-- Whether the call returned a Go `error`. -/
def Outcome.isError {α : Type} : Outcome α → Bool
  | .error _ => true
  | _ => false

/-! ## Strings -/

/-- Go `s[lo:hi]` on a string: panics unless `0 ≤ lo ≤ hi ≤ len(s)`. -/
def slice (s : GoString) (lo hi : Int) : Outcome GoString :=
  if 0 ≤ lo ∧ lo ≤ hi ∧ hi ≤ s.length then
    .ok ((s.take hi.toNat).drop lo.toNat)
  else .panic

/-- Search loop of `strings.Index`: the least offset, counted from `i`, at
which `sub` occurs, or `-1`. -/
def stringsIndexFrom (sub : GoString) : GoString → Nat → Int
  | [], i => if sub = [] then (i : Int) else -1
  | c :: cs, i => if sub.isPrefixOf (c :: cs) then (i : Int) else stringsIndexFrom sub cs (i + 1)

/-- Go `strings.Index(s, sub)`: byte offset of the first occurrence of `sub`
in `s`, or `-1` when there is none. -/
def stringsIndex (s sub : GoString) : Int := stringsIndexFrom sub s 0

/-- Go `strings.Contains(s, sub)`, which is `strings.Index(s, sub) >= 0`. -/
def stringsContains (s sub : GoString) : Bool := decide (0 ≤ stringsIndex s sub)

/-- Go `strings.Split(s, sep)` for a one-byte separator (both call sites pass
one: a newline and a space). -/
def stringsSplit (sep : Char) : GoString → List GoString
  | [] => [[]]
  | c :: cs =>
    if c = sep then [] :: stringsSplit sep cs
    else
      match stringsSplit sep cs with
      | [] => [[c]]
      | l :: ls => (c :: l) :: ls

/-! ## strconv -/

/-- Value of a decimal digit byte, `c - '0'`. -/
def digitVal (c : Char) : Nat := c.toNat - 48

/-- What `strconv.ParseUint` found. -/
inductive UintResult where
  | value (n : Nat)
  | malformed
  | outOfRange
  deriving DecidableEq, Repr

/-- The `cutoff` of `ParseUint` in base 10: the least `n` with `n*10` above
`MaxUint64`. -/
def uintCutoff : Nat := (2 ^ 64 - 1) / 10 + 1

/-- Digit loop of `strconv.ParseUint(s, 10, 64)`, from left to right with
accumulator `n`: a byte that is no digit is a syntax error, a value that would
exceed `MaxUint64` a range error, whichever comes first. -/
def parseUintLoop : GoString → Nat → UintResult
  | [], n => .value n
  | c :: cs, n =>
    if c.isDigit then
      if uintCutoff ≤ n then .outOfRange
      else if 2 ^ 64 - 1 < n * 10 + digitVal c then .outOfRange
      else parseUintLoop cs (n * 10 + digitVal c)
    else .malformed

/-- Go `strconv.ParseUint(s, 10, 64)`. -/
def ParseUint (s : GoString) : UintResult :=
  if s = [] then .malformed else parseUintLoop s 0

/-- Go `strconv.ParseInt(s, 10, 0)` on a 64-bit platform, keeping the value
and dropping the error as every call site does (`v, _ := ...`): `0` on a
syntax error, the nearest `int64` bound on a range error. -/
def ParseInt (s : GoString) : Int :=
  match s with
  | [] => 0
  | c :: cs =>
    let neg : Bool := decide (c = '-')
    let body : GoString := if c = '+' ∨ c = '-' then cs else c :: cs
    match ParseUint body with
    | .malformed => 0
    | .outOfRange => if neg then -(2 ^ 63) else 2 ^ 63 - 1
    | .value un =>
      if neg = false ∧ 2 ^ 63 ≤ un then 2 ^ 63 - 1
      else if neg = true ∧ 2 ^ 63 < un then -(2 ^ 63)
      else if neg then -(un : Int) else (un : Int)

/-- The `float64` values a cell can hold: `math.MaxFloat64`, or the `float64`
nearest to `t/10` for an integer `t`. Every number the decoder stores is an
integer of at most three digits or a one-digit decimal fraction, and `0`
stands for both signed zeros, which Go compares equal. -/
inductive F64 where
  | maxFloat64
  | tenths (t : Int)
  deriving DecidableEq, Repr

/-- Go `float64(z)`, exact for the integers the decoder converts. -/
def F64.ofInt (z : Int) : F64 := .tenths (10 * z)

/-- Go `strconv.ParseFloat(s, 64)` on a two-byte string, in tenths, the error
dropped (`0` on a syntax error). The only call passes
`entry[len(entry)-2:]`. Two bytes parse as a number exactly when they are two
digits, a sign and a digit, a digit and a point, or a point and a digit. -/
def ParseFloat2 (s : GoString) : Int :=
  match s with
  | [a, b] =>
    if a.isDigit ∧ b.isDigit then 10 * (10 * digitVal a + digitVal b : Nat)
    else if a = '+' ∧ b.isDigit then 10 * (digitVal b : Nat)
    else if a = '-' ∧ b.isDigit then -(10 * (digitVal b : Nat))
    else if a.isDigit ∧ b = '.' then 10 * (digitVal a : Nat)
    else if a = '.' ∧ b.isDigit then (digitVal b : Nat)
    else 0
  | _ => 0

/-! ## Regular expressions

Go's `regexp` returns the leftmost match and, among the matches that start
there, the one a backtracking search finds first. The matcher below is that
backtracking search, in continuation-passing style, for the fragment of the
syntax the three patterns of the source use: anchors, literal text, greedy
repetition of a byte class, numbered capture groups and concatenation.
Go matches rune by rune where the matcher below goes byte by byte. The two
agree on the three patterns: `\s` and `\d` are ASCII classes, `.` accepts every
rune but the newline (an invalid byte counts as a rune of one byte), and every
`.*` is followed by an ASCII byte or by the end of the pattern, neither of
which can lie inside a multi-byte sequence. -/

/-- Abstract syntax of the patterns. -/
inductive Regex where
  | bot
  | eot
  | lit (s : GoString)
  | rep (cls : Char → Bool) (min : Nat) (max : Option Nat)
  | group (i : Nat) (r : Regex)
  | cat (r₁ r₂ : Regex)

/-- A sequence of patterns. -/
def Regex.seq : List Regex → Regex
  | [] => .lit []
  | [r] => r
  | r :: rs => .cat r (Regex.seq rs)

/-- The class `.`: every byte but the newline. -/
def clsDot (c : Char) : Bool := decide (c ≠ '\n')

/-- The class `\s` of RE2: tab, newline, form feed, carriage return, space. -/
def clsSpace (c : Char) : Bool :=
  decide (c = '\t' ∨ c = '\n' ∨ c = Char.ofNat 12 ∨ c = '\r' ∨ c = ' ')

/-- The class `\d`. -/
def clsDigit (c : Char) : Bool := c.isDigit

/-- Number of capture groups of a pattern. -/
def Regex.numSubexp : Regex → Nat
  | .group i r => max i r.numSubexp
  | .cat a b => max a.numSubexp b.numSubexp
  | _ => 0

/-- Greedy repetition `cls{min,max}` (no `max` for `*` and `+`) at offset
`pos` of the text, `s` being the text from there on: first try to consume one
more byte, and only when the rest of the pattern `k` fails after that stop
here, provided `min` repetitions were made. -/
def matchRep {β : Type} (cls : Char → Bool) (k : Nat → GoString → Option β) :
    Nat → Option Nat → Nat → GoString → Option β
  | min, _, pos, [] => if min = 0 then k pos [] else none
  | min, max, pos, c :: cs =>
    if cls c = true ∧ max ≠ some 0 then
      match matchRep cls k (min - 1) (max.map (· - 1)) (pos + 1) cs with
      | some r => some r
      | none => if min = 0 then k pos (c :: cs) else none
    else if min = 0 then k pos (c :: cs) else none

/-- The backtracking matcher: `r.run pos s caps k` matches `r` at offset `pos`,
where the text from there on is `s` and the groups captured so far are `caps`,
and hands the offset, the remaining text and the captures to `k`, the rest of
the pattern. -/
def Regex.run : Regex → Nat → GoString → List GoString →
    (Nat → GoString → List GoString → Option (List GoString)) → Option (List GoString)
  | .bot, pos, s, caps, k => if pos = 0 then k pos s caps else none
  | .eot, pos, s, caps, k => if s = [] then k pos s caps else none
  | .lit l, pos, s, caps, k =>
    if l.isPrefixOf s = true then k (pos + l.length) (s.drop l.length) caps else none
  | .rep cls lo hi, pos, s, caps, k => matchRep cls (fun p t => k p t caps) lo hi pos s
  | .group i r, pos, s, caps, k =>
    r.run pos s caps (fun p t c => k p t (c.set i (s.take (p - pos))))
  | .cat a b, pos, s, caps, k => a.run pos s caps (fun p t c => b.run p t c k)

/-- A match attempt that starts at offset `pos`: on success the matched text
followed by the text of each group. -/
def Regex.matchAt (r : Regex) (pos : Nat) (s : GoString) : Option (List GoString) :=
  r.run pos s (List.replicate (r.numSubexp + 1) [])
    (fun p _ c => some (c.set 0 (s.take (p - pos))))

/-- The leftmost match: start offsets are tried from left to right. -/
def Regex.search (r : Regex) : Nat → GoString → Option (List GoString)
  | pos, [] => r.matchAt pos []
  | pos, c :: cs =>
    match r.matchAt pos (c :: cs) with
    | some m => some m
    | none => Regex.search r (pos + 1) cs

/-- Go `(*Regexp).MatchString`. -/
def MatchString (r : Regex) (s : GoString) : Bool := (r.search 0 s).isSome

/-- Go `(*Regexp).FindStringSubmatch`: the match and its groups, or the `nil`
slice (of length 0) when there is no match. -/
def FindStringSubmatch (r : Regex) (s : GoString) : List GoString :=
  (r.search 0 s).getD []

/-- Go `xs[i]`: panics unless `0 ≤ i < len(xs)`. -/
def index {α : Type} (xs : List α) (i : Int) : Outcome α :=
  if 0 ≤ i then
    match xs[i.toNat]? with
    | some x => .ok x
    | none => .panic
  else .panic

/-- Go `xs[lo:]` on a slice: panics unless `0 ≤ lo ≤ len(xs)`. -/
def sliceFrom {α : Type} (xs : List α) (lo : Int) : Outcome (List α) :=
  if 0 ≤ lo ∧ lo ≤ xs.length then .ok (xs.drop lo.toNat) else .panic

/-! ## Data model -/

/-- Go `WindTempData`. -/
structure WindTempData where
  WindDirectionDeg : F64
  WindSpeedKts : F64
  TempC : F64
  Altitude : Int
  deriving DecidableEq, Repr

/-- Go `ValidLineInfo`. -/
structure ValidLineInfo where
  Valid : GoString
  ForUseFrom : GoString
  ForUseTo : GoString
  NegAbove : Int
  deriving DecidableEq, Repr

/-- Go `DataHeaderInfo`. -/
structure DataHeaderInfo where
  Altitude : Int
  StartIdx : Int
  EndIdx : Int
  deriving DecidableEq, Repr

/-- A Go `map`, as the list of its key/value pairs; no key occurs twice and
the order of the pairs carries no meaning. -/
abbrev GoMap (κ ν : Type) := List (κ × ν)

/-- Go `m[k] = v`: overwrites the value stored under `k`, or adds the pair. -/
def mapSet {κ ν : Type} [DecidableEq κ] : GoMap κ ν → κ → ν → GoMap κ ν
  | [], k, v => [(k, v)]
  | (k', v') :: rest, k, v =>
    if k' = k then (k, v) :: rest else (k', v') :: mapSet rest k v

/-- Go `v, ok := m[k]`. -/
def mapGet {κ ν : Type} [DecidableEq κ] : GoMap κ ν → κ → Option ν
  | [], _ => none
  | (k', v') :: rest, k => if k' = k then some v' else mapGet rest k

/-- Go `LocationWindTempData`. -/
structure LocationWindTempData where
  AltitudeWindTemp : GoMap Int WindTempData
  deriving DecidableEq, Repr

/-- Go `WindAloftData`. -/
structure WindAloftData where
  ValidInfo : ValidLineInfo
  AltitudeHeaderInfo : List DataHeaderInfo
  IssuanceTime : GoString
  LocationWindTempData : GoMap GoString LocationWindTempData
  deriving DecidableEq, Repr

/-! ## Cell decoder -/

/-- Go `ProcessWindTempEntry`. -/
def ProcessWindTempEntry (entry : GoString) (altitude negAbove : Int) : Outcome WindTempData :=
  if entry.length = 0 then
    .ok { WindDirectionDeg := .maxFloat64, WindSpeedKts := .maxFloat64,
          TempC := F64.ofInt 0, Altitude := altitude }
  else
    (slice entry 0 2).bind fun dd =>
    let direction := ParseInt dd
    (slice entry 2 4).bind fun ss =>
    let speed := ParseInt ss
    let biased : Bool := decide (direction > 40 ∧ direction ≠ 99)
    let direction := if biased then direction - 50 else direction
    let speed := if biased then speed + 100 else speed
    let direction := direction * 10
    let direction := if direction = 990 then -1 else direction
    let temp : Outcome F64 :=
      if entry.length > 4 then
        let modifier : Int :=
          if altitude ≤ negAbove ∧ stringsContains entry ['+'] = true then 1 else -1
        (slice entry ((entry.length : Int) - 2) entry.length).bind fun tt =>
        .ok (.tenths (ParseFloat2 tt * modifier))
      else .ok .maxFloat64
    temp.bind fun temp =>
    .ok { WindDirectionDeg := F64.ofInt direction, WindSpeedKts := F64.ofInt speed,
          TempC := temp, Altitude := altitude }

/-! ## Validity parser -/

/-- The pattern `^VALID\s+(\d{6})Z\s+FOR USE\s+(\d{4})-(\d{4})Z.*(\d{4,6})$`. -/
def vexp : Regex :=
  Regex.seq [.bot, .lit "VALID".toList, .rep clsSpace 1 none,
    .group 1 (.rep clsDigit 6 (some 6)), .lit "Z".toList, .rep clsSpace 1 none,
    .lit "FOR USE".toList, .rep clsSpace 1 none,
    .group 2 (.rep clsDigit 4 (some 4)), .lit "-".toList,
    .group 3 (.rep clsDigit 4 (some 4)), .lit "Z".toList,
    .rep clsDot 0 none, .group 4 (.rep clsDigit 4 (some 6)), .eot]

/-- Go `ExtractValidLineInfo`. The result of `FindStringSubmatch` is indexed
without a check. -/
def ExtractValidLineInfo (validLine : GoString) : Outcome ValidLineInfo :=
  let groups := FindStringSubmatch vexp validLine
  (index groups 4).bind fun m4 =>
  let negAbove := ParseInt m4
  (index groups 1).bind fun m1 =>
  (index groups 2).bind fun m2 =>
  (index groups 3).bind fun m3 =>
  .ok { Valid := m1, ForUseFrom := m2, ForUseTo := m3, NegAbove := negAbove }

/-! ## Component extractor -/

/-- The pattern `^FT.*`. -/
def exp : Regex := Regex.seq [.bot, .lit "FT".toList, .rep clsDot 0 none]

/-- The pattern `^VALID.*TEMP.*NEG.*`. -/
def validLineExp : Regex :=
  Regex.seq [.bot, .lit "VALID".toList, .rep clsDot 0 none, .lit "TEMP".toList,
    .rep clsDot 0 none, .lit "NEG".toList, .rep clsDot 0 none]

/-- The `for i, s := range productTextLines` loop of `ExtractComponents`, from
index `i` on, over the pair `(headerIndex, validFromIndex)`. -/
def scanLines : List GoString → Int → Int × Int → Int × Int
  | [], _, st => st
  | s :: rest, i, st =>
    scanLines rest (i + 1)
      (if MatchString exp s = true then i else st.1,
       if MatchString validLineExp s = true then i else st.2)

/-- Go `ExtractComponents`: the validity line, the header line and the rows. -/
def ExtractComponents (productText : GoString) : Outcome (GoString × GoString × List GoString) :=
  let productTextLines := stringsSplit '\n' productText
  let idx := scanLines productTextLines 0 (-1, -1)
  let headerIndex := idx.1
  let validFromIndex := idx.2
  if headerIndex = -1 ∨ validFromIndex = -1 then
    .error { headerIndex := headerIndex, validFromIndex := validFromIndex,
             productText := productText }
  else
    (index productTextLines validFromIndex).bind fun validLine =>
    (index productTextLines headerIndex).bind fun headerLine =>
    (sliceFrom productTextLines (headerIndex + 1)).bind fun rows =>
    .ok (validLine, headerLine, rows)

/-! ## Altitude header parser -/

/-- The runes for which Go's `unicode.IsSpace` holds, each as the bytes of its
UTF-8 encoding: the six ASCII ones, U+0085, U+00A0, U+1680, U+2000 to U+200A,
U+2028, U+2029, U+202F, U+205F and U+3000. -/
def spaceRunes : List GoString :=
  [[' '], ['\t'], ['\n'], [Char.ofNat 0x0B], [Char.ofNat 0x0C], ['\r'],
   [Char.ofNat 0xC2, Char.ofNat 0x85], [Char.ofNat 0xC2, Char.ofNat 0xA0],
   [Char.ofNat 0xE1, Char.ofNat 0x9A, Char.ofNat 0x80]] ++
  (List.range 11).map (fun i => [Char.ofNat 0xE2, Char.ofNat 0x80, Char.ofNat (0x80 + i)]) ++
  [[Char.ofNat 0xE2, Char.ofNat 0x80, Char.ofNat 0xA8],
   [Char.ofNat 0xE2, Char.ofNat 0x80, Char.ofNat 0xA9],
   [Char.ofNat 0xE2, Char.ofNat 0x80, Char.ofNat 0xAF],
   [Char.ofNat 0xE2, Char.ofNat 0x81, Char.ofNat 0x9F],
   [Char.ofNat 0xE3, Char.ofNat 0x80, Char.ofNat 0x80]]

/-- Strips from the front of `s` every leading sequence among `runes`; each
step removes at least one byte, so `fuel = len(s)` steps are enough. -/
def trimLeftWith (runes : List GoString) : Nat → GoString → GoString
  | 0, s => s
  | fuel + 1, s =>
    match runes.find? (fun r => r.isPrefixOf s) with
    | some r => trimLeftWith runes fuel (s.drop r.length)
    | none => s

/-- Go `strings.TrimSpace`: leading white space is removed, then trailing
white space (decoded backwards from the end). -/
def TrimSpace (s : GoString) : GoString :=
  let t := trimLeftWith spaceRunes s.length s
  (trimLeftWith (spaceRunes.map List.reverse) t.length t.reverse).reverse

/-- The `for _, f := range fields` loop of `ProcessAltitudeHeader`, over the
running `lastIndex` and the columns appended so far. -/
def headerLoop (header : GoString) : List GoString → Int → List DataHeaderInfo → List DataHeaderInfo
  | [], _, dhis => dhis
  | f :: fs, lastIndex, dhis =>
    if f.length > 1 ∧ f ≠ "FT".toList then
      let fidx := stringsIndex header f
      let alt := ParseInt (TrimSpace f)
      headerLoop header fs (fidx + f.length)
        (dhis ++ [{ Altitude := alt, StartIdx := lastIndex + 1, EndIdx := fidx + f.length }])
    else headerLoop header fs lastIndex dhis

/-- Go `ProcessAltitudeHeader`. -/
def ProcessAltitudeHeader (header : GoString) : List DataHeaderInfo :=
  headerLoop header (stringsSplit ' ' header) 3 []

/-! ## Aggregator -/

/-- The `for _, altInf := range altitudeHeaderInfo` loop of
`GetWindsAloftDataByCode` for one row, over the map `AltitudeWindTemp`. -/
def cellLoop (row : GoString) (negAbove : Int) :
    List DataHeaderInfo → GoMap Int WindTempData → Outcome (GoMap Int WindTempData)
  | [], cells => .ok cells
  | altInf :: rest, cells =>
    (slice row altInf.StartIdx altInf.EndIdx).bind fun entryText =>
    (ProcessWindTempEntry entryText altInf.Altitude negAbove).bind fun windTempData =>
    cellLoop row negAbove rest (mapSet cells altInf.Altitude windTempData)

/-- The `for _, row := range windTempData` loop of `GetWindsAloftDataByCode`,
over the map `LocationWindTempData`. -/
def rowLoop (altitudeHeaderInfo : List DataHeaderInfo) (negAbove : Int) :
    List GoString → GoMap GoString LocationWindTempData →
    Outcome (GoMap GoString LocationWindTempData)
  | [], locs => .ok locs
  | row :: rows, locs =>
    if row.length = 0 then rowLoop altitudeHeaderInfo negAbove rows locs
    else
      (slice row 0 3).bind fun location =>
      (cellLoop row negAbove altitudeHeaderInfo []).bind fun cells =>
      rowLoop altitudeHeaderInfo negAbove rows
        (mapSet locs location { AltitudeWindTemp := cells })

/-- Go `GetWindsAloftDataByCode` from the point where the product has been
downloaded: `productText` and `issuanceTime` are the two fields of the
downloaded product that the function reads. -/
def GetWindsAloftDataByCode (productText issuanceTime : GoString) : Outcome WindAloftData :=
  (ExtractComponents productText).bind fun parts =>
  let validHeader := parts.1
  let altitudeHeader := parts.2.1
  let windTempData := parts.2.2
  (ExtractValidLineInfo validHeader).bind fun validLineInfo =>
  let altitudeHeaderInfo := ProcessAltitudeHeader altitudeHeader
  (rowLoop altitudeHeaderInfo validLineInfo.NegAbove windTempData []).bind fun locs =>
  .ok { ValidInfo := validLineInfo, AltitudeHeaderInfo := altitudeHeaderInfo,
        IssuanceTime := issuanceTime, LocationWindTempData := locs }

/-! ## Fixtures and the specification's wording -/

/-- The validity line of the specification's end-to-end scenario. -/
def scenarioValidLine : GoString :=
  "VALID 151200Z FOR USE 1300-2400Z FCST BASED ON 151200Z DATA VALID 151800Z FOR USE NEG ABV 12000".toList

/-- A product text with a leading remark, a validity line, a blank line, the
header line, one data row and a final newline. -/
def sampleProductText : GoString :=
  "DATA BASED ON 151200Z\nVALID 151800Z FOR USE 1400-2100Z. TEMPS NEG ABV 24000\n\nFT  3000 6000\nABI 1815+13\n".toList

/-- A text with a header line and a line that starts with "VALID" and contains
"NEG" before "TEMP". -/
def swappedValidityText : GoString := "FT\nVALID NEG TEMP".toList

/-- A header in which the token "2000" first occurs inside "12000". -/
def nestedTokenHeader : GoString := "FT 12000 2000".toList

/-- A header that starts with "FT" but has no space after it. -/
def gluedHeader : GoString := "FTx".toList

/-- The header line of the specification's end-to-end scenario. -/
def scenarioHeader : GoString := "FT  3000 6000 9000".toList

/-- The offsets of the columns read in column order: start0, end0, start1,
end1, ... -/
def columnOffsets : List DataHeaderInfo → List Int
  | [] => []
  | c :: cs => c.StartIdx :: c.EndIdx :: columnOffsets cs

/-- The pieces of a split with the offset at which each one lies in the text,
the first piece lying at offset `o`: a piece is followed by the one-byte
separator and the next piece. -/
def fieldOffsets : List GoString → Nat → List (Nat × GoString)
  | [], _ => []
  | f :: fs, o => (o, f) :: fieldOffsets fs (o + f.length + 1)

/-- The pieces joined again with the separator between neighbours. -/
def joinFields (sep : Char) : List GoString → GoString
  | [] => []
  | [f] => f
  | f :: g :: fs => f ++ sep :: joinFields sep (g :: fs)

/-- No altitude token of the header (a space-separated token longer than one
byte, other than "FT") occurs in the header to the left of its own position. -/
def NoEarlierOccurrence (header : GoString) : Prop :=
  ∀ p ∈ fieldOffsets (stringsSplit ' ' header) 0, p.2.length > 1 → p.2 ≠ "FT".toList →
    ∀ j < p.1, p.2.isPrefixOf (header.drop j) = false

instance (header : GoString) : Decidable (NoEarlierOccurrence header) := by
  unfold NoEarlierOccurrence; infer_instance

/-- A data row that ends after its first column. -/
def shortRow : GoString := "ABC 2307".toList

/-- A product text whose only data row ends after its first column. -/
def shortRowProductText : GoString :=
  "VALID 151800Z FOR USE 1400-2100Z. TEMPS NEG ABV 24000\nFT  3000 6000 9000\nABC 2307".toList

/-- The header test in the specification's words: the line starts with "FT". -/
def specHeaderLine (l : GoString) : Bool := "FT".toList.isPrefixOf l

/-- The validity-line test in the specification's words: the line starts with
"VALID", contains "TEMP" and contains "NEG". -/
def specValidLine (l : GoString) : Bool :=
  "VALID".toList.isPrefixOf l && stringsContains l "TEMP".toList && stringsContains l "NEG".toList

/-- Whether `strconv.ParseInt(s, 10, 0)` reports no syntax error for `s`. On a
string of at most 19 bytes, such as the two-byte fields of a cell, this says
that `s` is a base-10 integer: an optional sign followed by one or more decimal
digits. On a longer string the parse can end with a range error before it
reaches a byte that is no digit, and then no syntax error is reported. -/
def isBase10 (s : GoString) : Bool :=
  match s with
  | [] => false
  | c :: cs => decide (ParseUint (if c = '+' ∨ c = '-' then cs else c :: cs) ≠ .malformed)

/-- A cell of four blanks, as the product prints for a level it does not
forecast. -/
def blankCell : GoString := "    ".toList

/-- The part of `GetWindsAloftDataByCode` that follows `ExtractComponents`:
the validity parse, the header parse and the two loops, on the three
components `validHeader`, `altitudeHeader` and `windTempData`. -/
def aggregateComponents (validHeader altitudeHeader : GoString) (windTempData : List GoString)
    (issuanceTime : GoString) : Outcome WindAloftData :=
  (ExtractValidLineInfo validHeader).bind fun validLineInfo =>
  let altitudeHeaderInfo := ProcessAltitudeHeader altitudeHeader
  (rowLoop altitudeHeaderInfo validLineInfo.NegAbove windTempData []).bind fun locs =>
  .ok { ValidInfo := validLineInfo, AltitudeHeaderInfo := altitudeHeaderInfo,
        IssuanceTime := issuanceTime, LocationWindTempData := locs }

/-- The data row of the specification's end-to-end scenario. -/
def scenarioRow : GoString := "ABC2307+0623152306+02".toList

/-- The three cells decoded from the row of the scenario, by altitude. -/
def scenarioCells : GoMap Int WindTempData :=
  [(3000, ⟨F64.ofInt 300, F64.ofInt 0, F64.maxFloat64, 3000⟩),
   (6000, ⟨F64.ofInt 120, F64.ofInt 131, F64.maxFloat64, 6000⟩),
   (9000, ⟨F64.ofInt 230, F64.ofInt 6, F64.maxFloat64, 9000⟩)]

/-- A header whose two altitude tokens, "3000" and "03000", have the same
value. -/
def repeatedAltitudeHeader : GoString := "FT  3000 03000".toList

/-- A data row for `repeatedAltitudeHeader`. -/
def repeatedAltitudeRow : GoString := "ABC 2310 241500".toList


/-- The altitude tokens of a header line in the specification's words: the
space-separated tokens longer than one byte and not equal to "FT", in header
order. -/
def altitudeTokens (header : GoString) : List GoString :=
  (stringsSplit ' ' header).filter (fun f => decide (f.length > 1 ∧ f ≠ "FT".toList))

/-- The altitude tokens of a header line, each with the offset at which it
lies in the header. -/
def altitudeTokenOffsets (header : GoString) : List (Nat × GoString) :=
  (fieldOffsets (stringsSplit ' ' header) 0).filter
    (fun p => decide (p.2.length > 1 ∧ p.2 ≠ "FT".toList))

/-- The number a run of decimal digits writes. -/
def digitsValue (s : GoString) : Nat := s.foldl (fun n c => n * 10 + digitVal c) 0

/-- The decimal value of a token: defined for a non-empty run of decimal
digits. -/
def decimalValue (s : GoString) : Option Nat :=
  if s ≠ [] ∧ s.all Char.isDigit = true then some (digitsValue s) else none

/-- The columns for a list of altitude tokens, `cursor` being the running end
index when the first of them is reached. -/
def columnsOf (header : GoString) : List GoString → Int → List DataHeaderInfo
  | [], _ => []
  | f :: fs, cursor =>
    { Altitude := ParseInt (TrimSpace f), StartIdx := cursor + 1,
      EndIdx := stringsIndex header f + f.length } ::
      columnsOf header fs (stringsIndex header f + f.length)

/-- A header with an altitude token of twenty digits. -/
def hugeTokenHeader : GoString := "FT 99999999999999999999".toList

/-- A header with an altitude token that is not a number. -/
def flightLevelHeader : GoString := "FT  3000 FL450".toList

/-- The lengths `n` of the runs that the repetition `cls{lo,hi}` may consume at
the front of `s`: at most `len(s)`, at least `lo`, at most `hi` when there is
one, and made of bytes of the class. -/
def RepOk (cls : Char → Bool) (lo : Nat) (hi : Option Nat) (s : GoString) (n : Nat) : Prop :=
  n ≤ s.length ∧ lo ≤ n ∧ (∀ m, hi = some m → n ≤ m) ∧ ∀ c ∈ s.take n, cls c = true

/-- A header whose altitude token is twenty digits followed by a letter. -/
def hugeTokenLetterHeader : GoString := "FT 99999999999999999999x".toList

/-- A base-10 integer in writing: an optional sign followed by one or more
decimal digits. -/
def isDecimalInteger (s : GoString) : Bool :=
  match s with
  | [] => false
  | c :: cs =>
    let body : GoString := if c = '+' ∨ c = '-' then cs else c :: cs
    decide (body ≠ []) && body.all Char.isDigit

/-! ## Properties -/

set_option maxRecDepth 100000

theorem isDigit_iff (c : Char) : c.isDigit = true ↔ 48 ≤ c.toNat ∧ c.toNat ≤ 57 := by
  simp [Char.isDigit, Char.toNat, UInt32.le_def, Fin.le_def]
  rfl

theorem digitVal_le {c : Char} (h : c.isDigit = true) : digitVal c ≤ 9 := by
  rw [isDigit_iff] at h
  unfold digitVal; omega

theorem isDigit_ne_plus {c : Char} (h : c.isDigit = true) : c ≠ '+' := by
  rintro rfl; exact absurd h (by decide)

theorem isDigit_ne_minus {c : Char} (h : c.isDigit = true) : c ≠ '-' := by
  rintro rfl; exact absurd h (by decide)

/-- Two digit bytes parse to their decimal value. -/
theorem ParseInt_two_digits {a b : Char} (ha : a.isDigit = true) (hb : b.isDigit = true) :
    ParseInt [a, b] = ((10 * digitVal a + digitVal b : Nat) : Int) := by
  have ha9 := digitVal_le ha
  have hb9 := digitVal_le hb
  have h1 : ¬ (18446744073709551615 < digitVal a) := by omega
  have h2 : ¬ (1844674407370955162 ≤ digitVal a) := by omega
  have h3 : ¬ (18446744073709551615 < digitVal a * 10 + digitVal b) := by omega
  have h4 : ¬ (9223372036854775808 ≤ digitVal a * 10 + digitVal b) := by omega
  simp [ParseInt, ParseUint, parseUintLoop, isDigit_ne_plus ha, isDigit_ne_minus ha, ha, hb,
    h1, h2, h3, h4, uintCutoff]
  omega


theorem slice_eq_ok {s : GoString} {lo hi : Nat} (h1 : lo ≤ hi) (h2 : hi ≤ s.length) :
    slice s lo hi = .ok ((s.take hi).drop lo) := by
  unfold slice
  rw [if_pos ⟨by omega, by omega, by omega⟩]
  simp

theorem stringsIndexFrom_nonneg_iff (c : Char) (s : GoString) (i : Nat) :
    0 ≤ stringsIndexFrom [c] s i ↔ c ∈ s := by
  induction s generalizing i with
  | nil => simp [stringsIndexFrom]
  | cons x xs ih =>
    unfold stringsIndexFrom
    by_cases hx : c = x
    · subst hx; simp [List.isPrefixOf]
    · have : ([c].isPrefixOf (x :: xs)) = false := by simp [List.isPrefixOf, hx]
      rw [this]; simp [ih, hx]

theorem stringsContains_char (c : Char) (s : GoString) :
    stringsContains s [c] = true ↔ c ∈ s := by
  simp [stringsContains, stringsIndex, stringsIndexFrom_nonneg_iff]

@[simp] theorem Outcome.bind_ok {α β : Type} (v : α) (f : α → Outcome β) :
    (Outcome.ok v).bind f = f v := rfl

@[simp] theorem Outcome.bind_panic {α β : Type} (f : α → Outcome β) :
    (Outcome.panic : Outcome α).bind f = .panic := rfl

@[simp] theorem Outcome.bind_error {α β : Type} (e : FormatErr) (f : α → Outcome β) :
    (Outcome.error e : Outcome α).bind f = .error e := rfl

/-- The decoder on a cell of at least four bytes: it returns, and each field is
the expression the source computes for it. -/
theorem ProcessWindTempEntry_four (a b c d : Char) (rest : GoString) (alt neg : Int) :
    ProcessWindTempEntry (a :: b :: c :: d :: rest) alt neg = .ok
      { WindDirectionDeg := F64.ofInt
          (if (if 40 < ParseInt [a, b] ∧ ParseInt [a, b] ≠ 99 then ParseInt [a, b] - 50
                else ParseInt [a, b]) * 10 = 990 then -1
           else (if 40 < ParseInt [a, b] ∧ ParseInt [a, b] ≠ 99 then ParseInt [a, b] - 50
                else ParseInt [a, b]) * 10),
        WindSpeedKts := F64.ofInt
          (if 40 < ParseInt [a, b] ∧ ParseInt [a, b] ≠ 99 then ParseInt [c, d] + 100
           else ParseInt [c, d]),
        TempC :=
          if rest = [] then F64.maxFloat64
          else F64.tenths (ParseFloat2 ((a :: b :: c :: d :: rest).drop (rest.length + 2)) *
            (if alt ≤ neg ∧ '+' ∈ (a :: b :: c :: d :: rest) then 1 else -1)),
        Altitude := alt } := by
  unfold ProcessWindTempEntry
  have e1 : slice (a :: b :: c :: d :: rest) 0 2 = .ok [a, b] := by
    have := @slice_eq_ok (a :: b :: c :: d :: rest) 0 2 (by omega) (by simp)
    simpa using this
  have e2 : slice (a :: b :: c :: d :: rest) 2 4 = .ok [c, d] := by
    have := @slice_eq_ok (a :: b :: c :: d :: rest) 2 4 (by omega) (by simp)
    simpa using this
  have e3 : slice (a :: b :: c :: d :: rest) (((a :: b :: c :: d :: rest).length : Int) - 2)
      ((a :: b :: c :: d :: rest).length) = .ok ((a :: b :: c :: d :: rest).drop (rest.length + 2)) := by
    have := @slice_eq_ok (a :: b :: c :: d :: rest) (rest.length + 2) (rest.length + 4)
      (by omega) (by simp)
    have h : (((a :: b :: c :: d :: rest).length : Int) - 2) = ((rest.length + 2 : Nat) : Int) := by
      simp only [List.length_cons]; push_cast; ring
    have h' : (((a :: b :: c :: d :: rest).length : Nat) : Int) = ((rest.length + 4 : Nat) : Int) := by
      simp only [List.length_cons]
    rw [h, h', this]
    congr 1
    rw [List.take_of_length_le (by simp)]
  have hlen : ¬ ((a :: b :: c :: d :: rest).length = 0) := by simp
  rw [if_neg hlen, e1, e2]
  simp only [Outcome.bind_ok]
  by_cases hr : rest = []
  · subst hr
    simp
  · have hl : (a :: b :: c :: d :: rest).length > 4 := by
      have := List.length_pos.mpr hr
      simp only [List.length_cons]; omega
    rw [if_pos hl, e3]
    simp only [Outcome.bind_ok, stringsContains_char, if_neg hr]
    simp

/-! ### Cell decoder: wind field -/

/-- C1. For every altitude, every negAbove and every cell whose first four
bytes are decimal digits `DDSS` with `D ≠ 99`, `ProcessWindTempEntry` returns a
cell whose direction is `(D-50)*10` and whose speed is `S+100` when `D > 40`,
and whose direction is `D*10` and whose speed is `S` when `D ≤ 40`. -/
theorem C1_wind_bias_decoding (altitude negAbove : Int) (d1 d2 s1 s2 : Char) (rest : GoString)
    (hd1 : d1.isDigit = true) (hd2 : d2.isDigit = true)
    (hs1 : s1.isDigit = true) (hs2 : s2.isDigit = true)
    (h99 : 10 * digitVal d1 + digitVal d2 ≠ 99) :
    ∃ cell, ProcessWindTempEntry (d1 :: d2 :: s1 :: s2 :: rest) altitude negAbove = .ok cell ∧
      (40 < 10 * digitVal d1 + digitVal d2 →
        cell.WindDirectionDeg = F64.ofInt ((((10 * digitVal d1 + digitVal d2 : Nat) : Int) - 50) * 10) ∧
        cell.WindSpeedKts = F64.ofInt (((10 * digitVal s1 + digitVal s2 : Nat) : Int) + 100)) ∧
      (10 * digitVal d1 + digitVal d2 ≤ 40 →
        cell.WindDirectionDeg = F64.ofInt (((10 * digitVal d1 + digitVal d2 : Nat) : Int) * 10) ∧
        cell.WindSpeedKts = F64.ofInt ((10 * digitVal s1 + digitVal s2 : Nat) : Int)) := by
  refine ⟨_, ProcessWindTempEntry_four d1 d2 s1 s2 rest altitude negAbove, ?_, ?_⟩
  · intro hD
    have h1 := digitVal_le hd1
    have h2 := digitVal_le hd2
    have hb : (40 : Int) < ((10 * digitVal d1 + digitVal d2 : Nat) : Int) ∧
        ((10 * digitVal d1 + digitVal d2 : Nat) : Int) ≠ 99 := by omega
    have hn : ¬ ((((10 * digitVal d1 + digitVal d2 : Nat) : Int) - 50) * 10 = 990) := by omega
    simp only [ParseInt_two_digits hd1 hd2, ParseInt_two_digits hs1 hs2, if_pos hb, if_neg hn]
    exact ⟨trivial, trivial⟩
  · intro hD
    have hb : ¬ ((40 : Int) < ((10 * digitVal d1 + digitVal d2 : Nat) : Int) ∧
        ((10 * digitVal d1 + digitVal d2 : Nat) : Int) ≠ 99) := by omega
    have hn : ¬ (((10 * digitVal d1 + digitVal d2 : Nat) : Int) * 10 = 990) := by omega
    simp only [ParseInt_two_digits hd1 hd2, ParseInt_two_digits hs1 hs2, if_neg hb, if_neg hn]
    exact ⟨trivial, trivial⟩

/-- C1, at the cell "7320": direction 230 and speed 120. -/
theorem C1_wind_bias_decoding_witness :
    ∃ cell, ProcessWindTempEntry "7320".toList 0 0 = .ok cell ∧
      cell.WindDirectionDeg = F64.ofInt 230 ∧ cell.WindSpeedKts = F64.ofInt 120 := by
  obtain ⟨cell, h, hhi, _⟩ := C1_wind_bias_decoding 0 0 '7' '3' '2' '0' []
    (by decide) (by decide) (by decide) (by decide) (by decide)
  exact ⟨cell, h, hhi (by decide)⟩

/-- C2 (failing input). On the two-byte cell "27", at altitude 6 with negAbove
9, `ProcessWindTempEntry` stops with a slice-bounds panic at `entry[2:4]`; it
returns no cell, so no temperature sentinel. -/
theorem C2_short_cell_panics : ProcessWindTempEntry "27".toList 6 9 = .panic := by
  decide

/-- C3. For every altitude, every negAbove and every cell that starts with
"99" followed by two decimal digits `SS`, `ProcessWindTempEntry` returns a cell
whose direction is `-1` and whose speed is `S`, without the `+100` bias. -/
theorem C3_variable_wind_sentinel (altitude negAbove : Int) (s1 s2 : Char) (rest : GoString)
    (hs1 : s1.isDigit = true) (hs2 : s2.isDigit = true) :
    ∃ cell, ProcessWindTempEntry ('9' :: '9' :: s1 :: s2 :: rest) altitude negAbove = .ok cell ∧
      cell.WindDirectionDeg = F64.ofInt (-1) ∧
      cell.WindSpeedKts = F64.ofInt ((10 * digitVal s1 + digitVal s2 : Nat) : Int) := by
  refine ⟨_, ProcessWindTempEntry_four '9' '9' s1 s2 rest altitude negAbove, ?_, ?_⟩
  · have h99 : ParseInt ['9', '9'] = 99 := by decide
    simp only [h99]
    decide
  · have h99 : ParseInt ['9', '9'] = 99 := by decide
    simp only [h99, ParseInt_two_digits hs1 hs2]
    simp

/-- C3, at the cell "9900": direction -1, speed 0. -/
theorem C3_variable_wind_sentinel_witness :
    ∃ cell, ProcessWindTempEntry "9900".toList 0 0 = .ok cell ∧
      cell.WindDirectionDeg = F64.ofInt (-1) ∧ cell.WindSpeedKts = F64.ofInt 0 :=
  C3_variable_wind_sentinel 0 0 '0' '0' [] (by decide) (by decide)

/-! ### Validity parser -/

/-- C4 (failing input). On the validity line of the specification's scenario,
whose trailing integer is 12000, `ExtractValidLineInfo` returns `NegAbove =
2000`: the greedy `.*` takes the leading digit and leaves the last group four
digits. -/
theorem C4_scenario_negAbove : ExtractValidLineInfo scenarioValidLine =
      .ok { Valid := "151200".toList, ForUseFrom := "1300".toList, ForUseTo := "2400".toList,
            NegAbove := 2000 } := by
  decide

/-- A line the pattern does not match makes `ExtractValidLineInfo` panic. -/
theorem ExtractValidLineInfo_panics_of_no_match (line : GoString)
    (h : vexp.search 0 line = none) : ExtractValidLineInfo line = .panic := by
  simp [ExtractValidLineInfo, FindStringSubmatch, h, index]

/-- C5 (failing input). On a validity line without the trailing integer the
pattern does not match, `FindStringSubmatch` returns `nil`, and
`ExtractValidLineInfo` stops with an index-out-of-range panic at `matches[4]`
instead of returning an error. -/
theorem C5_unmatched_line_panics :
    ExtractValidLineInfo "VALID 151800Z FOR USE 1400-2100Z. TEMPS NEG ABV".toList = .panic := by
  decide

/-! ### Regular expressions -/

/-- A greedy star followed by `k` finds a match exactly when `k` succeeds after
some run of bytes of the class. -/
theorem matchRep_star_isSome {β : Type} (cls : Char → Bool) (k : Nat → GoString → Option β)
    (pos : Nat) (s : GoString) :
    (matchRep cls k 0 none pos s).isSome = true ↔
      ∃ n, n ≤ s.length ∧ (∀ c ∈ s.take n, cls c = true) ∧
        (k (pos + n) (s.drop n)).isSome = true := by
  induction s generalizing pos with
  | nil =>
    simp only [matchRep, if_true, List.length_nil, Nat.le_zero_eq]
    constructor
    · intro h; exact ⟨0, rfl, by simp, by simpa using h⟩
    · rintro ⟨n, rfl, _, h⟩; simpa using h
  | cons c cs ih =>
    unfold matchRep
    by_cases hc : cls c = true
    · have hcond : cls c = true ∧ (none : Option Nat) ≠ some 0 := ⟨hc, by simp⟩
      rw [if_pos hcond]
      have hrec := ih (pos + 1)
      simp only [Nat.sub_self, Option.map_none', Nat.zero_sub] at hrec ⊢
      cases hm : matchRep cls k 0 none (pos + 1) cs with
      | some r =>
        rw [hm] at hrec
        obtain ⟨n, hn, hall, hk⟩ := hrec.mp rfl
        simp only [Option.isSome_some, true_iff]
        refine ⟨n + 1, by simp; omega, ?_, ?_⟩
        · intro x hx
          simp only [List.take_succ_cons, List.mem_cons] at hx
          rcases hx with rfl | hx
          · exact hc
          · exact hall x hx
        · have : pos + (n + 1) = pos + 1 + n := by omega
          rw [this]; simpa using hk
      | none =>
        rw [hm] at hrec
        simp only [if_true]
        constructor
        · intro h; exact ⟨0, by simp, by simp, by simpa using h⟩
        · rintro ⟨n, hn, hall, hk⟩
          cases n with
          | zero => simpa using hk
          | succ n =>
            exfalso
            have : (none : Option β).isSome = true := hrec.mpr ⟨n, by simpa using hn, (by
              intro x hx; exact hall x (by simp [hx])), (by
              have : pos + 1 + n = pos + (n + 1) := by omega
              rw [this]; simpa using hk)⟩
            simp at this
    · have hcond : ¬ (cls c = true ∧ (none : Option Nat) ≠ some 0) := fun h => hc h.1
      rw [if_neg hcond]
      simp only [if_true]
      constructor
      · intro h; exact ⟨0, by simp, by simp, by simpa using h⟩
      · rintro ⟨n, hn, hall, hk⟩
        cases n with
        | zero => simpa using hk
        | succ n => exact absurd (hall c (by simp)) hc

/-- A pattern that starts with `^` matches at no offset but the first. -/
theorem search_bot_cat_pos (r : Regex) (pos : Nat) (hpos : pos ≠ 0) (s : GoString) :
    (Regex.cat .bot r).search pos s = none := by
  induction s generalizing pos with
  | nil => simp [Regex.search, Regex.matchAt, Regex.run, hpos]
  | cons c cs ih =>
    have h : (Regex.cat .bot r).matchAt pos (c :: cs) = none := by
      simp [Regex.matchAt, Regex.run, hpos]
    rw [Regex.search, h]
    exact ih (pos + 1) (by omega)

/-- For a pattern that starts with `^` the search is the attempt at offset 0. -/
theorem search_bot_cat (r : Regex) (s : GoString) :
    (Regex.cat .bot r).search 0 s = (Regex.cat .bot r).matchAt 0 s := by
  cases s with
  | nil => rfl
  | cons c cs =>
    rw [Regex.search]
    cases h : (Regex.cat .bot r).matchAt 0 (c :: cs) with
    | some m => rfl
    | none => simpa using search_bot_cat_pos r 1 (by omega) cs

/-- The header pattern `^FT.*` matches exactly the lines that start with "FT". -/
theorem MatchString_exp (l : GoString) :
    MatchString exp l = true ↔ "FT".toList <+: l := by
  unfold MatchString exp
  simp only [Regex.seq]
  rw [search_bot_cat]
  simp only [Regex.matchAt, Regex.run, if_true]
  rw [← List.isPrefixOf_iff_prefix]
  by_cases h : "FT".toList.isPrefixOf l = true
  · rw [if_pos h, matchRep_star_isSome]
    simp only [h, iff_true]
    exact ⟨0, by simp, by simp, by simp⟩
  · rw [if_neg h]
    exact ⟨fun h' => by simp at h', fun h' => absurd h' h⟩

theorem clsDot_all_iff (a : GoString) : (∀ c ∈ a, clsDot c = true) ↔ '\n' ∉ a := by
  simp only [clsDot, decide_eq_true_eq]
  constructor
  · intro h hin; exact h _ hin rfl
  · intro h c hc hcn; exact h (hcn ▸ hc)

/-- Literal text `p` followed by `.*` and the rest `k` of a pattern. -/
theorem lit_dotStar_isSome {β : Type} (p s : GoString) (k : Nat → GoString → Option β) (q : Nat) :
    (if p.isPrefixOf s = true then matchRep clsDot k 0 none q (s.drop p.length)
      else none).isSome = true ↔
      ∃ a t, s = p ++ a ++ t ∧ '\n' ∉ a ∧ (k (q + a.length) t).isSome = true := by
  constructor
  · intro h
    split at h
    · rename_i hp
      rw [List.isPrefixOf_iff_prefix] at hp
      obtain ⟨t1, rfl⟩ := hp
      rw [List.drop_left, matchRep_star_isSome] at h
      obtain ⟨n, hn, ha, hk⟩ := h
      refine ⟨t1.take n, t1.drop n, ?_, (clsDot_all_iff _).mp ha, ?_⟩
      · rw [List.append_assoc, List.take_append_drop]
      · rw [List.length_take, Nat.min_eq_left hn]; exact hk
    · simp at h
  · rintro ⟨a, t, rfl, ha, hk⟩
    have hp : p.isPrefixOf (p ++ a ++ t) = true := by
      rw [List.isPrefixOf_iff_prefix, List.append_assoc]; exact List.prefix_append _ _
    rw [if_pos hp, List.append_assoc, List.drop_left, matchRep_star_isSome]
    refine ⟨a.length, by simp, ?_, ?_⟩
    · rw [List.take_left]; exact (clsDot_all_iff _).mpr ha
    · rw [List.drop_left]; exact hk

/-- The validity pattern `^VALID.*TEMP.*NEG.*` matches exactly the lines made of
"VALID", some text, "TEMP", some text, "NEG" and some text, the first two
stretches of text free of newlines. -/
theorem MatchString_validLineExp (l : GoString) :
    MatchString validLineExp l = true ↔
      ∃ a b c, l = "VALID".toList ++ a ++ "TEMP".toList ++ b ++ "NEG".toList ++ c ∧
        '\n' ∉ a ∧ '\n' ∉ b := by
  unfold MatchString validLineExp
  simp only [Regex.seq]
  rw [search_bot_cat]
  simp only [Regex.matchAt, Regex.run, if_true]
  rw [lit_dotStar_isSome]
  simp only [lit_dotStar_isSome, Option.isSome_some, and_true]
  constructor
  · rintro ⟨a, t, rfl, ha, b, t', rfl, hb, c, t'', rfl, _⟩
    exact ⟨a, b, c ++ t'', by simp [List.append_assoc], ha, hb⟩
  · rintro ⟨a, b, c, rfl, ha, hb⟩
    exact ⟨a, "TEMP".toList ++ b ++ "NEG".toList ++ c, by simp [List.append_assoc], ha,
      b, "NEG".toList ++ c, by simp [List.append_assoc], hb, [], c, by simp, by simp⟩

/-! ### Component extractor -/

theorem stringsSplit_ne_nil (sep : Char) (s : GoString) : stringsSplit sep s ≠ [] := by
  cases s with
  | nil => simp [stringsSplit]
  | cons c cs =>
    unfold stringsSplit
    split
    · simp
    · split <;> simp

/-- No piece of a split contains the separator. -/
theorem not_mem_of_mem_stringsSplit (sep : Char) (s : GoString) :
    ∀ l ∈ stringsSplit sep s, sep ∉ l := by
  induction s with
  | nil => simp [stringsSplit]
  | cons c cs ih =>
    unfold stringsSplit
    split
    · rename_i hc
      intro l hl
      simp only [List.mem_cons] at hl
      rcases hl with rfl | hl
      · simp
      · exact ih l hl
    · rename_i hc
      split
      · rename_i hs
        intro l hl
        simp only [List.mem_singleton] at hl
        subst hl
        simp only [List.mem_singleton]
        exact fun h => hc h.symm
      · rename_i x xs hs
        rw [hs] at ih
        intro l hl
        simp only [List.mem_cons] at hl
        rcases hl with rfl | hl
        · intro hmem
          simp only [List.mem_cons] at hmem
          rcases hmem with h | h
          · exact hc h.symm
          · exact ih x (by simp) h
        · exact ih l (by simp [hl])

/-- The header index after the loop: unchanged when no line matches `^FT.*`,
else the index of the last line that does. -/
theorem scanLines_fst (lines : List GoString) (i : Int) (st : Int × Int) :
    ((∀ l ∈ lines, MatchString exp l = false) ∧ (scanLines lines i st).1 = st.1) ∨
    (∃ pre l post, lines = pre ++ l :: post ∧ MatchString exp l = true ∧
      (∀ x ∈ post, MatchString exp x = false) ∧ (scanLines lines i st).1 = i + pre.length) := by
  induction lines generalizing i st with
  | nil => left; simp [scanLines]
  | cons s rest ih =>
    rw [scanLines]
    rcases ih (i + 1) (if MatchString exp s = true then i else st.1,
       if MatchString validLineExp s = true then i else st.2) with ⟨hno, heq⟩ | ⟨pre, l, post, rfl, hl, hpost, heq⟩
    · by_cases hs : MatchString exp s = true
      · right
        refine ⟨[], s, rest, rfl, hs, hno, ?_⟩
        rw [heq]; simp [hs]
      · left
        refine ⟨?_, ?_⟩
        · intro l hl
          simp only [List.mem_cons] at hl
          rcases hl with rfl | hl
          · simpa using hs
          · exact hno l hl
        · rw [heq]; simp [hs]
    · right
      refine ⟨s :: pre, l, post, rfl, hl, hpost, ?_⟩
      rw [heq]; simp only [List.length_cons]; push_cast; ring

/-- The validity index after the loop: unchanged when no line matches
`^VALID.*TEMP.*NEG.*`, else the index of the last line that does. -/
theorem scanLines_snd (lines : List GoString) (i : Int) (st : Int × Int) :
    ((∀ l ∈ lines, MatchString validLineExp l = false) ∧ (scanLines lines i st).2 = st.2) ∨
    (∃ pre l post, lines = pre ++ l :: post ∧ MatchString validLineExp l = true ∧
      (∀ x ∈ post, MatchString validLineExp x = false) ∧
      (scanLines lines i st).2 = i + pre.length) := by
  induction lines generalizing i st with
  | nil => left; simp [scanLines]
  | cons s rest ih =>
    rw [scanLines]
    rcases ih (i + 1) (if MatchString exp s = true then i else st.1,
       if MatchString validLineExp s = true then i else st.2) with ⟨hno, heq⟩ | ⟨pre, l, post, rfl, hl, hpost, heq⟩
    · by_cases hs : MatchString validLineExp s = true
      · right
        refine ⟨[], s, rest, rfl, hs, hno, ?_⟩
        rw [heq]; simp [hs]
      · left
        refine ⟨?_, ?_⟩
        · intro l hl
          simp only [List.mem_cons] at hl
          rcases hl with rfl | hl
          · simpa using hs
          · exact hno l hl
        · rw [heq]; simp [hs]
    · right
      refine ⟨s :: pre, l, post, rfl, hl, hpost, ?_⟩
      rw [heq]; simp only [List.length_cons]; push_cast; ring

theorem index_append_cons {α : Type} (pre : List α) (x : α) (post : List α) :
    index (pre ++ x :: post) (pre.length : Int) = .ok x := by
  have h : (pre ++ x :: post)[((pre.length : Int)).toNat]? = some x := by
    rw [Int.toNat_ofNat, List.getElem?_append_right (le_refl _)]
    simp
  unfold index
  rw [if_pos (by omega), h]

theorem sliceFrom_append_cons {α : Type} (pre : List α) (x : α) (post : List α) :
    sliceFrom (pre ++ x :: post) ((pre.length : Int) + 1) = .ok post := by
  unfold sliceFrom
  rw [if_pos ⟨by omega, by simp only [List.length_append, List.length_cons]; push_cast; omega⟩]
  have : ((pre.length : Int) + 1).toNat = pre.length + 1 := by omega
  rw [this]
  simp

/-- What `ExtractComponents` returns, in full: an error when one of the two
lines is missing, and otherwise the last validity line, the last header line
and the lines after that header line. It never panics. -/
theorem ExtractComponents_cases (text : GoString) :
    (((∀ l ∈ stringsSplit '\n' text, MatchString exp l = false) ∨
      (∀ l ∈ stringsSplit '\n' text, MatchString validLineExp l = false)) ∧
      ∃ e, ExtractComponents text = .error e) ∨
    (∃ pre h rows pre' v post', stringsSplit '\n' text = pre ++ h :: rows ∧
      MatchString exp h = true ∧ (∀ x ∈ rows, MatchString exp x = false) ∧
      stringsSplit '\n' text = pre' ++ v :: post' ∧ MatchString validLineExp v = true ∧
      (∀ x ∈ post', MatchString validLineExp x = false) ∧
      ExtractComponents text = .ok (v, h, rows)) := by
  unfold ExtractComponents
  rcases scanLines_fst (stringsSplit '\n' text) 0 (-1, -1) with ⟨hno, heq⟩ | ⟨pre, h, rows, hlines, hh, hrows, heq⟩
  · left
    refine ⟨Or.inl hno, ?_⟩
    simp only [heq, true_or, if_true]
    exact ⟨_, rfl⟩
  · rcases scanLines_snd (stringsSplit '\n' text) 0 (-1, -1) with ⟨hno', heq'⟩ | ⟨pre', v, post', hlines', hv, hpost', heq'⟩
    · left
      refine ⟨Or.inr hno', ?_⟩
      simp only [heq', or_true, if_true]
      exact ⟨_, rfl⟩
    · right
      refine ⟨pre, h, rows, pre', v, post', hlines, hh, hrows, hlines', hv, hpost', ?_⟩
      simp only [heq, heq', zero_add]
      have h1 : ¬ ((pre.length : Int) = -1 ∨ (pre'.length : Int) = -1) := by omega
      rw [if_neg h1]
      have e1 : index (stringsSplit '\n' text) (pre'.length : Int) = .ok v := by
        rw [hlines']; exact index_append_cons _ _ _
      have e2 : index (stringsSplit '\n' text) (pre.length : Int) = .ok h := by
        rw [hlines]; exact index_append_cons _ _ _
      have e3 : sliceFrom (stringsSplit '\n' text) ((pre.length : Int) + 1) = .ok rows := by
        rw [hlines]; exact sliceFrom_append_cons _ _ _
      rw [e1, e2, e3]
      rfl

/-- C6 (as stated, refuted). The text "FT\nVALID NEG TEMP" has a line that
starts with "FT" and a line that starts with "VALID", contains "TEMP" and
contains "NEG", yet `ExtractComponents` returns an error on it: the pattern
wants "TEMP" before "NEG". -/
theorem C6_unordered_reading_fails :
    ¬ ((ExtractComponents swappedValidityText).isError = true ↔
        ((∀ l ∈ stringsSplit '\n' swappedValidityText, specHeaderLine l = false) ∨
         (∀ l ∈ stringsSplit '\n' swappedValidityText, specValidLine l = false))) := by
  decide

/-- C6 (amended). For every product text, `ExtractComponents` returns an error
if and only if the text, split on newlines, has no line that starts with "FT"
or has no line made of "VALID", some text, "TEMP", some text, "NEG" and some
text, in this order; it succeeds if and only if it has both. In particular a
text with no line starting with "FT" never yields a successful result. -/
theorem C6_error_iff_missing_line (text : GoString) :
    ((ExtractComponents text).isError = true ↔
      ((∀ l ∈ stringsSplit '\n' text, ¬ "FT".toList <+: l) ∨
       (∀ l ∈ stringsSplit '\n' text, ¬ ∃ a b c,
          l = "VALID".toList ++ a ++ "TEMP".toList ++ b ++ "NEG".toList ++ c))) ∧
    ((ExtractComponents text).isOk = true ↔
      ((∃ l ∈ stringsSplit '\n' text, "FT".toList <+: l) ∧
       (∃ l ∈ stringsSplit '\n' text, ∃ a b c,
          l = "VALID".toList ++ a ++ "TEMP".toList ++ b ++ "NEG".toList ++ c))) := by
  have hH : ∀ l, MatchString exp l = false ↔ ¬ "FT".toList <+: l := by
    intro l; rw [← MatchString_exp]; simp
  have hV : ∀ l ∈ stringsSplit '\n' text, (MatchString validLineExp l = true ↔
      ∃ a b c, l = "VALID".toList ++ a ++ "TEMP".toList ++ b ++ "NEG".toList ++ c) := by
    intro l hl
    rw [MatchString_validLineExp]
    have hnl := not_mem_of_mem_stringsSplit '\n' text l hl
    constructor
    · rintro ⟨a, b, c, h, _, _⟩; exact ⟨a, b, c, h⟩
    · rintro ⟨a, b, c, h⟩
      refine ⟨a, b, c, h, ?_, ?_⟩
      · intro hin; apply hnl; rw [h]; simp [hin]
      · intro hin; apply hnl; rw [h]; simp [hin]
  have hV' : ∀ l ∈ stringsSplit '\n' text, (MatchString validLineExp l = false ↔
      ¬ ∃ a b c, l = "VALID".toList ++ a ++ "TEMP".toList ++ b ++ "NEG".toList ++ c) := by
    intro l hl; rw [← hV l hl]; simp
  rcases ExtractComponents_cases text with ⟨hmiss, e, he⟩ | ⟨pre, h, rows, pre', v, post', hl, hh, _, hl', hv, _, hok⟩
  · have hcond : (∀ l ∈ stringsSplit '\n' text, ¬ "FT".toList <+: l) ∨
       (∀ l ∈ stringsSplit '\n' text, ¬ ∃ a b c,
          l = "VALID".toList ++ a ++ "TEMP".toList ++ b ++ "NEG".toList ++ c) := by
      rcases hmiss with h1 | h2
      · exact Or.inl fun l hl => (hH l).mp (h1 l hl)
      · exact Or.inr fun l hl => (hV' l hl).mp (h2 l hl)
    rw [he]
    refine ⟨⟨fun _ => hcond, fun _ => rfl⟩, ⟨fun h => by simp [Outcome.isOk] at h, ?_⟩⟩
    rintro ⟨⟨l1, hl1, hp1⟩, ⟨l2, hl2, hp2⟩⟩
    rcases hcond with h1 | h2
    · exact absurd hp1 (h1 l1 hl1)
    · exact absurd hp2 (h2 l2 hl2)
  · have hmemh : h ∈ stringsSplit '\n' text := by rw [hl]; simp
    have hmemv : v ∈ stringsSplit '\n' text := by rw [hl']; simp
    have hboth : (∃ l ∈ stringsSplit '\n' text, "FT".toList <+: l) ∧
       (∃ l ∈ stringsSplit '\n' text, ∃ a b c,
          l = "VALID".toList ++ a ++ "TEMP".toList ++ b ++ "NEG".toList ++ c) :=
      ⟨⟨h, hmemh, (MatchString_exp h).mp hh⟩, ⟨v, hmemv, (hV v hmemv).mp hv⟩⟩
    rw [hok]
    refine ⟨⟨fun h => by simp [Outcome.isError] at h, ?_⟩, ⟨fun _ => hboth, fun _ => rfl⟩⟩
    rintro (h1 | h2)
    · exact absurd hboth.1.choose_spec.2 (h1 _ hboth.1.choose_spec.1)
    · exact absurd hboth.2.choose_spec.2 (h2 _ hboth.2.choose_spec.1)

/-- C7. For every product text on which `ExtractComponents` succeeds, the
returned header line is the last line of the text that starts with "FT", and
the returned rows are exactly the lines after that header line, in their
order, blank lines included. -/
theorem C7_header_is_last_FT_line (text validLine headerLine : GoString) (rows : List GoString)
    (hok : ExtractComponents text = .ok (validLine, headerLine, rows)) :
    ∃ before, stringsSplit '\n' text = before ++ headerLine :: rows ∧
      "FT".toList <+: headerLine ∧ ∀ r ∈ rows, ¬ "FT".toList <+: r := by
  rcases ExtractComponents_cases text with ⟨_, e, he⟩ | ⟨pre, h, rows', pre', v, post', hl, hh, hrows, _, _, _, hok'⟩
  · rw [he] at hok; cases hok
  · rw [hok'] at hok
    cases hok
    refine ⟨pre, hl, (MatchString_exp _).mp hh, ?_⟩
    intro r hr hp
    have := hrows r hr
    rw [(MatchString_exp r).mpr hp] at this
    cases this

/-- C7, on a sample product text: the rows are the data row and the empty line
after the final newline. -/
theorem C7_header_is_last_FT_line_witness :
    ExtractComponents sampleProductText =
      .ok ("VALID 151800Z FOR USE 1400-2100Z. TEMPS NEG ABV 24000".toList,
           "FT  3000 6000".toList, ["ABI 1815+13".toList, []]) ∧
    ∃ before, stringsSplit '\n' sampleProductText =
        before ++ "FT  3000 6000".toList :: ["ABI 1815+13".toList, []] ∧
      "FT".toList <+: "FT  3000 6000".toList ∧
      ∀ r ∈ ["ABI 1815+13".toList, []], ¬ "FT".toList <+: r :=
  ⟨by decide, C7_header_is_last_FT_line sampleProductText
    "VALID 151800Z FOR USE 1400-2100Z. TEMPS NEG ABV 24000".toList
    "FT  3000 6000".toList ["ABI 1815+13".toList, []] (by decide)⟩

/-! ### Altitude header parser -/

/-- The loop only appends to the columns it is given. -/
theorem headerLoop_append (header : GoString) (fs : List GoString) (last : Int)
    (dhis : List DataHeaderInfo) :
    headerLoop header fs last dhis = dhis ++ headerLoop header fs last [] := by
  induction fs generalizing last dhis with
  | nil => simp [headerLoop]
  | cons f fs ih =>
    unfold headerLoop
    split
    · rw [ih, ih _ ([] ++ _)]; simp
    · exact ih _ _

/-- Each column starts one past the end of the column before it, the first one
past the running index the loop starts with. -/
theorem headerLoop_linked (header : GoString) (fs : List GoString) (last : Int)
    (d : DataHeaderInfo) (hd : d.EndIdx = last) :
    List.Chain (fun a b : DataHeaderInfo => b.StartIdx = a.EndIdx + 1) d
      (headerLoop header fs last []) := by
  induction fs generalizing last d with
  | nil => simp [headerLoop]
  | cons f fs ih =>
    unfold headerLoop
    split
    · rw [headerLoop_append]
      simp only [List.nil_append, List.singleton_append]
      refine List.Chain.cons (by simp [hd]) ?_
      exact ih _ _ rfl
    · exact ih _ _ hd

/-- C8. For every header line, consecutive columns returned by
`ProcessAltitudeHeader` do not overlap and run from left to right:
`columns[i].EndIdx ≤ columns[i+1].StartIdx` whenever column `i` has a
successor. -/
theorem C8_columns_do_not_overlap (header : GoString) (i : Nat) (a b : DataHeaderInfo)
    (ha : (ProcessAltitudeHeader header)[i]? = some a)
    (hb : (ProcessAltitudeHeader header)[i + 1]? = some b) :
    a.EndIdx ≤ b.StartIdx := by
  have hchain : List.Chain' (fun a b : DataHeaderInfo => b.StartIdx = a.EndIdx + 1)
      (ProcessAltitudeHeader header) := by
    have := headerLoop_linked header (stringsSplit ' ' header) 3 ⟨0, 0, 3⟩ rfl
    exact (List.Chain'.tail (l := _ :: _) this)
  rw [List.chain'_iff_get] at hchain
  obtain ⟨hi, rfl⟩ := List.getElem?_eq_some.mp ha
  obtain ⟨hi', rfl⟩ := List.getElem?_eq_some.mp hb
  have := hchain i (by omega)
  simp only [List.get_eq_getElem] at this
  omega

/-- C8, on the header of the specification's scenario, between the first two
columns. -/
theorem C8_columns_do_not_overlap_witness :
    (ProcessAltitudeHeader "FT  3000 6000 9000".toList)[0]? = some ⟨3000, 4, 8⟩ ∧
    (ProcessAltitudeHeader "FT  3000 6000 9000".toList)[1]? = some ⟨6000, 9, 13⟩ ∧
    (8 : Int) ≤ 9 :=
  ⟨by decide, by decide,
    C8_columns_do_not_overlap "FT  3000 6000 9000".toList 0 ⟨3000, 4, 8⟩ ⟨6000, 9, 13⟩
      (by decide) (by decide)⟩

/-- Joining the pieces of a split gives the text back. -/
theorem joinFields_stringsSplit (sep : Char) (s : GoString) :
    joinFields sep (stringsSplit sep s) = s := by
  induction s with
  | nil => simp [stringsSplit, joinFields]
  | cons c cs ih =>
    unfold stringsSplit
    split
    · rename_i hc
      cases hs : stringsSplit sep cs with
      | nil => exact absurd hs (stringsSplit_ne_nil sep cs)
      | cons g gs =>
        rw [hs] at ih
        simp [joinFields, ih, hc]
    · cases hs : stringsSplit sep cs with
      | nil => exact absurd hs (stringsSplit_ne_nil sep cs)
      | cons g gs =>
        rw [hs] at ih
        cases gs with
        | nil => simpa [joinFields] using ih
        | cons g' gs' =>
          simp only [joinFields] at ih ⊢
          simp [ih]

/-- Every piece lies in the joined text at its offset. -/
theorem fieldOffsets_occurs (sep : Char) (fs : List GoString) (b : Nat) :
    ∀ p ∈ fieldOffsets fs b, b ≤ p.1 ∧ p.2 <+: (joinFields sep fs).drop (p.1 - b) := by
  induction fs generalizing b with
  | nil => simp [fieldOffsets]
  | cons f fs ih =>
    intro p hp
    simp only [fieldOffsets, List.mem_cons] at hp
    rcases hp with rfl | hp
    · refine ⟨le_refl _, ?_⟩
      simp only [Nat.sub_self, List.drop_zero]
      cases fs with
      | nil => simp [joinFields]
      | cons g gs => simp [joinFields]
    · obtain ⟨hle, hpre⟩ := ih _ p hp
      refine ⟨by omega, ?_⟩
      cases fs with
      | nil => simp [fieldOffsets] at hp
      | cons g gs =>
        have hsplit : p.1 - b = (f ++ [sep]).length + (p.1 - (b + f.length + 1)) := by
          simp; omega
        have hj : joinFields sep (f :: g :: gs) = (f ++ [sep]) ++ joinFields sep (g :: gs) := by
          simp [joinFields]
        rw [hj, hsplit, List.drop_append]
        exact hpre

/-- `strings.Index` returns the offset of an occurrence that has no occurrence
to its left. -/
theorem stringsIndexFrom_eq_of_first (sub s : GoString) (i o : Nat)
    (hocc : sub.isPrefixOf (s.drop o) = true)
    (hfirst : ∀ j < o, sub.isPrefixOf (s.drop j) = false) :
    stringsIndexFrom sub s i = ((i + o : Nat) : Int) := by
  induction s generalizing i o with
  | nil =>
    cases o with
    | zero =>
      have : sub = [] := by
        cases sub with
        | nil => rfl
        | cons x xs => simp [List.isPrefixOf] at hocc
      simp [stringsIndexFrom, this]
    | succ o =>
      have h0 := hfirst 0 (by omega)
      simp only [List.drop_nil] at hocc h0
      rw [hocc] at h0; cases h0
  | cons c cs ih =>
    cases o with
    | zero =>
      simp only [List.drop_zero] at hocc
      simp [stringsIndexFrom, hocc]
    | succ o =>
      have h0 := hfirst 0 (by omega)
      simp only [List.drop_zero] at h0
      rw [stringsIndexFrom, h0]
      simp only [Bool.false_eq_true, if_false]
      rw [ih (i + 1) o (by simpa using hocc) (fun j hj => by simpa using hfirst (j + 1) (by omega))]
      congr 1; omega

/-- Under `NoEarlierOccurrence`, `strings.Index` finds every altitude token at
its own position. -/
theorem stringsIndex_eq_own_offset (header : GoString) (hown : NoEarlierOccurrence header) :
    ∀ p ∈ fieldOffsets (stringsSplit ' ' header) 0, p.2.length > 1 → p.2 ≠ "FT".toList →
      stringsIndex header p.2 = (p.1 : Int) := by
  intro p hp hlen hne
  have hocc := (fieldOffsets_occurs ' ' _ 0 p hp).2
  rw [joinFields_stringsSplit, Nat.sub_zero, ← List.isPrefixOf_iff_prefix] at hocc
  have := stringsIndexFrom_eq_of_first p.2 header 0 p.1 hocc (hown p hp hlen hne)
  simpa [stringsIndex] using this

/-- When every altitude token is found at its own position and the running
index does not exceed the offset of the next field, the offsets the loop
produces ascend. -/
theorem headerLoop_offsets_ascend (header : GoString) (fs : List GoString) (b : Nat) (last : Int)
    (hlast : last ≤ b)
    (H : ∀ p ∈ fieldOffsets fs b, p.2.length > 1 → p.2 ≠ "FT".toList →
      stringsIndex header p.2 = (p.1 : Int)) :
    List.Chain (· ≤ ·) last (columnOffsets (headerLoop header fs last [])) := by
  induction fs generalizing b last with
  | nil => simp [headerLoop, columnOffsets]
  | cons f fs ih =>
    have Htail : ∀ p ∈ fieldOffsets fs (b + f.length + 1), p.2.length > 1 → p.2 ≠ "FT".toList →
        stringsIndex header p.2 = (p.1 : Int) := fun p hp =>
      H p (by simp [fieldOffsets, hp])
    unfold headerLoop
    split
    · rename_i hq
      have hidx : stringsIndex header f = (b : Int) := H (b, f) (by simp [fieldOffsets]) hq.1 hq.2
      rw [headerLoop_append]
      simp only [List.nil_append, List.singleton_append, columnOffsets, hidx]
      have hlen : (2 : Int) ≤ (f.length : Int) := by have := hq.1; omega
      refine List.Chain.cons (by omega) (List.Chain.cons (by omega) ?_)
      exact ih (b + f.length + 1) _ (by push_cast; omega) Htail
    · exact ih (b + f.length + 1) last (by push_cast; omega) Htail

theorem start_le_end_of_offsets_ascend (cols : List DataHeaderInfo)
    (h : List.Chain' (· ≤ ·) (columnOffsets cols)) : ∀ c ∈ cols, c.StartIdx ≤ c.EndIdx := by
  induction cols with
  | nil => simp
  | cons d ds ih =>
    intro c hc
    simp only [columnOffsets] at h
    simp only [List.mem_cons] at hc
    rcases hc with rfl | hc
    · exact (List.chain'_cons.mp h).1
    · exact ih (List.Chain'.tail (List.Chain'.tail h)) c hc

/-- C9 (as stated, refuted). The header "FT 12000 2000" starts with "FT", yet
its columns are (12000, 4, 8) and (2000, 9, 8): "2000" is first found inside
"12000", so the offsets 4, 8, 9, 8 do not ascend and the second column has
`StartIdx > EndIdx`. The header "FTx" starts with "FT" as well and yields the
single column (0, 4, 3). -/
theorem C9_offsets_not_monotone :
    ProcessAltitudeHeader nestedTokenHeader = [⟨12000, 4, 8⟩, ⟨2000, 9, 8⟩] ∧
    "FT".toList <+: nestedTokenHeader ∧
    ¬ List.Chain' (· ≤ ·) (columnOffsets (ProcessAltitudeHeader nestedTokenHeader)) ∧
    ProcessAltitudeHeader gluedHeader = [⟨0, 4, 3⟩] ∧
    "FT".toList <+: gluedHeader ∧
    ¬ List.Chain' (· ≤ ·) (columnOffsets (ProcessAltitudeHeader gluedHeader)) := by
  have h1 : ProcessAltitudeHeader nestedTokenHeader = [⟨12000, 4, 8⟩, ⟨2000, 9, 8⟩] := by decide
  have h2 : ProcessAltitudeHeader gluedHeader = [⟨0, 4, 3⟩] := by decide
  refine ⟨h1, by decide, ?_, h2, by decide, ?_⟩
  · rw [h1]; simp [columnOffsets]
  · rw [h2]; simp [columnOffsets]

/-- C9 (amended). For every header line that begins with "FT " and in which no
altitude token occurs to the left of its own position, the offsets of the
columns returned by `ProcessAltitudeHeader` ascend when read in column order
(start0, end0, start1, end1, ...); in particular every column has
`StartIdx ≤ EndIdx`. -/
theorem C9_offsets_monotone (header : GoString) (hFT : "FT ".toList <+: header)
    (hown : NoEarlierOccurrence header) :
    List.Chain' (· ≤ ·) (columnOffsets (ProcessAltitudeHeader header)) ∧
    ∀ c ∈ ProcessAltitudeHeader header, c.StartIdx ≤ c.EndIdx := by
  obtain ⟨t, rfl⟩ := hFT
  have hsplit : stringsSplit ' ' ("FT ".toList ++ t) = "FT".toList :: stringsSplit ' ' t := by
    cases hs : stringsSplit ' ' t with
    | nil => exact absurd hs (stringsSplit_ne_nil ' ' t)
    | cons g gs =>
      show stringsSplit ' ' ('F' :: 'T' :: ' ' :: t) = _
      simp [stringsSplit, hs]
  have H := stringsIndex_eq_own_offset _ hown
  rw [hsplit] at H
  have Htail : ∀ p ∈ fieldOffsets (stringsSplit ' ' t) 3, p.2.length > 1 → p.2 ≠ "FT".toList →
      stringsIndex ("FT ".toList ++ t) p.2 = (p.1 : Int) := fun p hp =>
    H p (by
      have : fieldOffsets ("FT".toList :: stringsSplit ' ' t) 0 =
          (0, "FT".toList) :: fieldOffsets (stringsSplit ' ' t) 3 := rfl
      rw [this]; exact List.mem_cons_of_mem _ hp)
  have hchain : List.Chain' (· ≤ ·)
      (columnOffsets (ProcessAltitudeHeader ("FT ".toList ++ t))) := by
    unfold ProcessAltitudeHeader
    rw [hsplit]
    have hskip : headerLoop ("FT ".toList ++ t) ("FT".toList :: stringsSplit ' ' t) 3 [] =
        headerLoop ("FT ".toList ++ t) (stringsSplit ' ' t) 3 [] := by
      rw [headerLoop]; simp
    rw [hskip]
    have := headerLoop_offsets_ascend ("FT ".toList ++ t) (stringsSplit ' ' t) 3 3 (by simp) Htail
    exact List.Chain'.tail (l := _ :: _) this
  exact ⟨hchain, start_le_end_of_offsets_ascend _ hchain⟩

/-- C9 (amended), on the header of the specification's scenario: the offsets
are 4, 8, 9, 13, 14, 18. -/
theorem C9_offsets_monotone_witness :
    columnOffsets (ProcessAltitudeHeader scenarioHeader) = [4, 8, 9, 13, 14, 18] ∧
    List.Chain' (· ≤ ·) (columnOffsets (ProcessAltitudeHeader scenarioHeader)) ∧
    ∀ c ∈ ProcessAltitudeHeader scenarioHeader, c.StartIdx ≤ c.EndIdx :=
  ⟨by decide, C9_offsets_monotone scenarioHeader (by decide) (by decide)⟩

/-! ### Aggregator -/

theorem slice_ok_or_panic (s : GoString) (lo hi : Int) :
    (∃ t, slice s lo hi = .ok t) ∨ slice s lo hi = .panic := by
  unfold slice
  split
  · exact Or.inl ⟨_, rfl⟩
  · exact Or.inr rfl

theorem slice_panic_of_short (s : GoString) (lo hi : Int) (h : (s.length : Int) < hi) :
    slice s lo hi = .panic := by
  unfold slice
  rw [if_neg (by omega)]

/-- The cell decoder returns a cell or panics; it returns no `error`. -/
theorem ProcessWindTempEntry_ok_or_panic (entry : GoString) (altitude negAbove : Int) :
    (∃ cell, ProcessWindTempEntry entry altitude negAbove = .ok cell) ∨
      ProcessWindTempEntry entry altitude negAbove = .panic := by
  unfold ProcessWindTempEntry
  split
  · exact Or.inl ⟨_, rfl⟩
  · rcases slice_ok_or_panic entry 0 2 with ⟨dd, h1⟩ | h1
    · rcases slice_ok_or_panic entry 2 4 with ⟨ss, h2⟩ | h2
      · rw [h1, h2]
        simp only [Outcome.bind_ok]
        split
        · rcases slice_ok_or_panic entry ((entry.length : Int) - 2) entry.length with ⟨tt, h3⟩ | h3
          · rw [h3]; exact Or.inl ⟨_, rfl⟩
          · rw [h3]; exact Or.inr rfl
        · exact Or.inl ⟨_, rfl⟩
      · rw [h1, h2]; exact Or.inr rfl
    · rw [h1]; exact Or.inr rfl

/-- The cell loop panics on every row that is shorter than the `EndIdx` of one
of the columns. -/
theorem cellLoop_panics_of_short_row (row : GoString) (negAbove : Int)
    (cols : List DataHeaderInfo) (cells : GoMap Int WindTempData)
    (h : ∃ c ∈ cols, (row.length : Int) < c.EndIdx) :
    cellLoop row negAbove cols cells = .panic := by
  induction cols generalizing cells with
  | nil => simp at h
  | cons c cs ih =>
    unfold cellLoop
    by_cases hc : (row.length : Int) < c.EndIdx
    · rw [slice_panic_of_short _ _ _ hc]; rfl
    · have hrest : ∃ c ∈ cs, (row.length : Int) < c.EndIdx := by
        obtain ⟨d, hd, hlt⟩ := h
        simp only [List.mem_cons] at hd
        rcases hd with rfl | hd
        · exact absurd hlt hc
        · exact ⟨d, hd, hlt⟩
      rcases slice_ok_or_panic row c.StartIdx c.EndIdx with ⟨t, h1⟩ | h1
      · rw [h1, Outcome.bind_ok]
        rcases ProcessWindTempEntry_ok_or_panic t c.Altitude negAbove with ⟨cell, h2⟩ | h2
        · rw [h2]; exact ih _ hrest
        · rw [h2]; rfl
      · rw [h1]; rfl

/-- C10 (failing input). With the three columns of the scenario header and the
non-empty row "ABC 2307", which ends before the second column's `EndIdx` 13,
the aggregation loop stops with a slice-bounds panic at
`row[altInf.StartIdx:altInf.EndIdx]`; no cell is stored for that column. -/
theorem C10_short_row_panics :
    rowLoop [⟨3000, 4, 8⟩, ⟨6000, 9, 13⟩, ⟨9000, 14, 18⟩] 12000 [shortRow] [] = .panic := by
  decide

/-! ### Cell decoder: temperature field -/

/-- On a cell of more than four bytes that ends in two digits of value `T`, the
decoder returns the temperature `+T` when the altitude is at or below
`negAbove` and the cell contains a '+', and `-T` otherwise. -/
theorem ProcessWindTempEntry_temperature_sign (body : GoString) (t1 t2 : Char)
    (altitude negAbove : Int) (hlen : 2 < body.length)
    (h1 : t1.isDigit = true) (h2 : t2.isDigit = true) :
    ∃ cell, ProcessWindTempEntry (body ++ [t1, t2]) altitude negAbove = .ok cell ∧
      cell.TempC = F64.ofInt
        (if altitude ≤ negAbove ∧ '+' ∈ body ++ [t1, t2]
          then ((10 * digitVal t1 + digitVal t2 : Nat) : Int)
          else -((10 * digitVal t1 + digitVal t2 : Nat) : Int)) := by
  obtain ⟨a, b, c, d, rest, hentry⟩ : ∃ a b c d rest, body ++ [t1, t2] = a :: b :: c :: d :: rest := by
    match body, hlen with
    | a :: b :: c :: [], _ => exact ⟨a, b, c, t1, [t2], rfl⟩
    | a :: b :: c :: d :: r, _ => exact ⟨a, b, c, d, r ++ [t1, t2], rfl⟩
  have hrest : rest ≠ [] := by
    intro h
    have := congrArg List.length hentry
    simp [h] at this
    omega
  have hl : rest.length + 2 = body.length := by
    have := congrArg List.length hentry
    simp at this
    omega
  have hdrop : (a :: b :: c :: d :: rest).drop (rest.length + 2) = [t1, t2] := by
    rw [← hentry, hl, List.drop_left]
  have key := ProcessWindTempEntry_four a b c d rest altitude negAbove
  rw [hdrop, if_neg hrest, ← hentry] at key
  have hpf : ParseFloat2 [t1, t2] = 10 * ((10 * digitVal t1 + digitVal t2 : Nat) : Int) := by
    simp [ParseFloat2, h1, h2]
  refine ⟨_, key, ?_⟩
  simp only [hpf, F64.ofInt]
  congr 1
  split <;> ring

/-- On a cell of exactly four bytes the decoder returns the `math.MaxFloat64`
temperature, the "not reported" sentinel. -/
theorem ProcessWindTempEntry_temperature_four (a b c d : Char) (altitude negAbove : Int) :
    ∃ cell, ProcessWindTempEntry [a, b, c, d] altitude negAbove = .ok cell ∧
      cell.TempC = F64.maxFloat64 :=
  ⟨_, ProcessWindTempEntry_four a b c d [] altitude negAbove, by simp⟩

/-- On a non-empty cell of fewer than four bytes the decoder panics. -/
theorem ProcessWindTempEntry_panics_of_short (entry : GoString) (altitude negAbove : Int)
    (h0 : 0 < entry.length) (h4 : entry.length < 4) :
    ProcessWindTempEntry entry altitude negAbove = .panic := by
  match entry, h0, h4 with
  | [a], _, _ => simp [ProcessWindTempEntry, slice]
  | [a, b], _, _ => simp [ProcessWindTempEntry, slice]
  | [a, b, c], _, _ => simp [ProcessWindTempEntry, slice]

/-! ### Cell decoder: malformed, empty and out-of-range cells -/

/-- A string that is no base-10 integer parses to 0. -/
theorem ParseInt_of_not_isBase10 (s : GoString) (h : isBase10 s = false) : ParseInt s = 0 := by
  cases s with
  | nil => rfl
  | cons c cs =>
    simp only [isBase10, decide_eq_false_iff_not, ne_eq, not_not] at h
    simp only [ParseInt, h]

/-- C11 (as stated, refuted). The cell of four blanks is non-empty and neither
of its fields is a base-10 integer, yet `ProcessWindTempEntry` returns
direction 0 and speed 0 for it, not the `math.MaxFloat64` sentinel. -/
theorem C11_blank_cell_decodes_as_zero :
    isBase10 (blankCell.take 2) = false ∧ isBase10 ((blankCell.drop 2).take 2) = false ∧
    ProcessWindTempEntry blankCell 3000 12000 =
      .ok { WindDirectionDeg := F64.ofInt 0, WindSpeedKts := F64.ofInt 0,
            TempC := F64.maxFloat64, Altitude := 3000 } ∧
    F64.ofInt 0 ≠ F64.maxFloat64 := by
  decide

/-- C11 (amended). For every altitude, every negAbove and every cell of at
least four bytes whose direction field or speed field is not a base-10
integer, `ProcessWindTempEntry` returns a cell, and the field that is not a
base-10 integer is read as 0: a malformed direction field gives direction 0
and the speed field unbiased, a malformed speed field gives speed 0, or 100
when the direction code carries the bias. -/
theorem C11_malformed_field_reads_as_zero (altitude negAbove : Int) (a b c d : Char)
    (rest : GoString) :
    ∃ cell, ProcessWindTempEntry (a :: b :: c :: d :: rest) altitude negAbove = .ok cell ∧
      (isBase10 [a, b] = false →
        cell.WindDirectionDeg = F64.ofInt 0 ∧ cell.WindSpeedKts = F64.ofInt (ParseInt [c, d])) ∧
      (isBase10 [c, d] = false →
        cell.WindSpeedKts =
          F64.ofInt (if 40 < ParseInt [a, b] ∧ ParseInt [a, b] ≠ 99 then 100 else 0)) := by
  refine ⟨_, ProcessWindTempEntry_four a b c d rest altitude negAbove, ?_, ?_⟩
  · intro h
    simp [ParseInt_of_not_isBase10 _ h]
  · intro h
    simp [ParseInt_of_not_isBase10 _ h]

/-- C12. For every altitude and every negAbove, `ProcessWindTempEntry` on the
empty string returns the cell whose direction and speed are both the
`math.MaxFloat64` sentinel, whose temperature is 0 and whose altitude is the
altitude passed in. -/
theorem C12_empty_cell_is_missing (altitude negAbove : Int) :
    ProcessWindTempEntry [] altitude negAbove =
      .ok { WindDirectionDeg := F64.maxFloat64, WindSpeedKts := F64.maxFloat64,
            TempC := F64.ofInt 0, Altitude := altitude } := by
  simp [ProcessWindTempEntry]

/-- C17 (as stated, refuted). The first four bytes of the cells "4110" and
"3710" are decimal digits, yet `ProcessWindTempEntry` returns the directions
-90 and 370 for them: neither lies between 0 and 360, and neither is -1 or
the `math.MaxFloat64` sentinel. -/
theorem C17_direction_out_of_range :
    ProcessWindTempEntry "4110".toList 3000 12000 =
      .ok { WindDirectionDeg := F64.ofInt (-90), WindSpeedKts := F64.ofInt 110,
            TempC := F64.maxFloat64, Altitude := 3000 } ∧
    ProcessWindTempEntry "3710".toList 3000 12000 =
      .ok { WindDirectionDeg := F64.ofInt 370, WindSpeedKts := F64.ofInt 10,
            TempC := F64.maxFloat64, Altitude := 3000 } ∧
    F64.ofInt (-90) ≠ F64.ofInt (-1) ∧ F64.ofInt (-90) ≠ F64.maxFloat64 ∧
    F64.ofInt 370 ≠ F64.ofInt (-1) ∧ F64.ofInt 370 ≠ F64.maxFloat64 := by
  decide

/-- C17 (amended). For every altitude, every negAbove and every cell whose
first four bytes are decimal digits `DDSS`, `ProcessWindTempEntry` returns a
cell whose direction is an integer, and that integer lies between 0 and 360 or
is the marker -1 exactly when `D ≤ 36`, `50 ≤ D ≤ 86` or `D = 99`; it is never
the `math.MaxFloat64` sentinel. (Only the two direction bytes need to be
digits for this.) -/
theorem C17_direction_range (altitude negAbove : Int) (d1 d2 s1 s2 : Char) (rest : GoString)
    (hd1 : d1.isDigit = true) (hd2 : d2.isDigit = true) :
    ∃ cell z, ProcessWindTempEntry (d1 :: d2 :: s1 :: s2 :: rest) altitude negAbove = .ok cell ∧
      cell.WindDirectionDeg = F64.ofInt z ∧ cell.WindDirectionDeg ≠ F64.maxFloat64 ∧
      ((0 ≤ z ∧ z ≤ 360) ∨ z = -1 ↔
        (10 * digitVal d1 + digitVal d2 ≤ 36 ∨
         (50 ≤ 10 * digitVal d1 + digitVal d2 ∧ 10 * digitVal d1 + digitVal d2 ≤ 86) ∨
         10 * digitVal d1 + digitVal d2 = 99)) := by
  have h1 := digitVal_le hd1
  have h2 := digitVal_le hd2
  refine ⟨_, _, ProcessWindTempEntry_four d1 d2 s1 s2 rest altitude negAbove, rfl, ?_, ?_⟩
  · simp [F64.ofInt]
  · rw [ParseInt_two_digits hd1 hd2]
    split_ifs <;> omega

/-- C17 (amended), on the cell "2715": direction 270. -/
theorem C17_direction_range_witness :
    ∃ cell z, ProcessWindTempEntry "2715".toList 3000 12000 = .ok cell ∧
      cell.WindDirectionDeg = F64.ofInt z ∧ cell.WindDirectionDeg ≠ F64.maxFloat64 ∧
      ((0 ≤ z ∧ z ≤ 360) ∨ z = -1 ↔
        (10 * digitVal '2' + digitVal '7' ≤ 36 ∨
         (50 ≤ 10 * digitVal '2' + digitVal '7' ∧ 10 * digitVal '2' + digitVal '7' ≤ 86) ∨
         10 * digitVal '2' + digitVal '7' = 99)) :=
  C17_direction_range 3000 12000 '2' '7' '1' '5' [] (by decide) (by decide)

/-! ### Aggregator: the end-to-end scenario -/

/-- `GetWindsAloftDataByCode` is `ExtractComponents` followed by
`aggregateComponents`. -/
theorem GetWindsAloftDataByCode_eq (productText issuanceTime : GoString) :
    GetWindsAloftDataByCode productText issuanceTime =
      (ExtractComponents productText).bind fun parts =>
        aggregateComponents parts.1 parts.2.1 parts.2.2 issuanceTime := rfl

/-- C14. On the header line, the validity line and the data row of the
specification's scenario the aggregation returns normally, and its result has
a record for location "ABC" with exactly three cells, under the altitudes
3000, 6000 and 9000; each is the cell `ProcessWindTempEntry` returns, with
negAbove 12000, for the slice of the row at the offsets derived for that
column. (The slices are "307+", "6231" and "2306".) -/
theorem C14_scenario_record (issuanceTime : GoString) :
    ∃ result record,
      aggregateComponents scenarioValidLine scenarioHeader [scenarioRow] issuanceTime
        = .ok result ∧
      result.LocationWindTempData.map Prod.fst = ["ABC".toList] ∧
      mapGet result.LocationWindTempData "ABC".toList = some record ∧
      record.AltitudeWindTemp.map Prod.fst = [3000, 6000, 9000] ∧
      ∀ c ∈ ProcessAltitudeHeader scenarioHeader, ∃ text cell,
        slice scenarioRow c.StartIdx c.EndIdx = .ok text ∧
        ProcessWindTempEntry text c.Altitude 12000 = .ok cell ∧
        mapGet record.AltitudeWindTemp c.Altitude = some cell := by
  have hv : ExtractValidLineInfo scenarioValidLine =
      .ok { Valid := "151200".toList, ForUseFrom := "1300".toList, ForUseTo := "2400".toList,
            NegAbove := 2000 } := by decide
  have hcols : ProcessAltitudeHeader scenarioHeader =
      [⟨3000, 4, 8⟩, ⟨6000, 9, 13⟩, ⟨9000, 14, 18⟩] := by decide
  have hrows : rowLoop [⟨3000, 4, 8⟩, ⟨6000, 9, 13⟩, ⟨9000, 14, 18⟩] 2000 [scenarioRow] [] =
      .ok [("ABC".toList, { AltitudeWindTemp := scenarioCells })] := by decide
  refine ⟨{ ValidInfo := ⟨"151200".toList, "1300".toList, "2400".toList, 2000⟩,
            AltitudeHeaderInfo := [⟨3000, 4, 8⟩, ⟨6000, 9, 13⟩, ⟨9000, 14, 18⟩],
            IssuanceTime := issuanceTime,
            LocationWindTempData := [("ABC".toList, { AltitudeWindTemp := scenarioCells })] },
          { AltitudeWindTemp := scenarioCells }, ?_, ?_, ?_, ?_, ?_⟩
  · unfold aggregateComponents
    rw [hv, Outcome.bind_ok, hcols]
    simp only [hrows, Outcome.bind_ok]
  · rfl
  · show mapGet [("ABC".toList, LocationWindTempData.mk scenarioCells)] "ABC".toList = _
    decide
  · rfl
  · intro c hc
    rw [hcols] at hc
    simp only [List.mem_cons, List.mem_singleton, List.not_mem_nil, or_false] at hc
    rcases hc with rfl | rfl | rfl
    · exact ⟨"307+".toList, ⟨F64.ofInt 300, F64.ofInt 0, F64.maxFloat64, 3000⟩,
        by decide, by decide, by decide⟩
    · exact ⟨"6231".toList, ⟨F64.ofInt 120, F64.ofInt 131, F64.maxFloat64, 6000⟩,
        by decide, by decide, by decide⟩
    · exact ⟨"2306".toList, ⟨F64.ofInt 230, F64.ofInt 6, F64.maxFloat64, 9000⟩,
        by decide, by decide, by decide⟩

/-! ### Maps -/

theorem mapGet_mapSet_same {κ ν : Type} [DecidableEq κ] (m : GoMap κ ν) (k : κ) (v : ν) :
    mapGet (mapSet m k v) k = some v := by
  induction m with
  | nil => simp [mapSet, mapGet]
  | cons p ps ih =>
    obtain ⟨k', v'⟩ := p
    by_cases h : k' = k
    · simp [mapSet, mapGet, h]
    · simp [mapSet, mapGet, h, ih]

theorem mapGet_mapSet_ne {κ ν : Type} [DecidableEq κ] (m : GoMap κ ν) (k k₂ : κ) (v : ν)
    (hne : k₂ ≠ k) : mapGet (mapSet m k v) k₂ = mapGet m k₂ := by
  induction m with
  | nil => simp [mapSet, mapGet, Ne.symm hne]
  | cons p ps ih =>
    obtain ⟨k', v'⟩ := p
    by_cases h : k' = k
    · subst h
      simp [mapSet, mapGet, Ne.symm hne]
    · by_cases h2 : k' = k₂
      · subst h2
        simp [mapSet, mapGet, h]
      · simp [mapSet, mapGet, h, h2, ih]

theorem mem_mapSet {κ ν : Type} [DecidableEq κ] (m : GoMap κ ν) (k : κ) (v : ν) (p : κ × ν)
    (hp : p ∈ mapSet m k v) : p ∈ m ∨ p = (k, v) := by
  induction m with
  | nil => simpa [mapSet] using hp
  | cons q qs ih =>
    obtain ⟨k', v'⟩ := q
    by_cases h : k' = k
    · simp only [mapSet, h, if_true, List.mem_cons] at hp
      rcases hp with rfl | hp
      · exact Or.inr rfl
      · exact Or.inl (List.mem_cons_of_mem _ hp)
    · simp only [mapSet, h, if_false, List.mem_cons] at hp
      rcases hp with rfl | hp
      · exact Or.inl (List.mem_cons_self _ _)
      · rcases ih hp with h1 | h1
        · exact Or.inl (List.mem_cons_of_mem _ h1)
        · exact Or.inr h1

/-- Storing under a key that the map does not hold adds the key at the end. -/
theorem mapSet_keys_of_not_mem {κ ν : Type} [DecidableEq κ] (m : GoMap κ ν) (k : κ) (v : ν)
    (hk : k ∉ m.map Prod.fst) : (mapSet m k v).map Prod.fst = m.map Prod.fst ++ [k] := by
  induction m with
  | nil => simp [mapSet]
  | cons q qs ih =>
    obtain ⟨k', v'⟩ := q
    simp only [List.map_cons, List.mem_cons, not_or] at hk
    have h : ¬ k' = k := fun h => hk.1 h.symm
    simp [mapSet, h, ih hk.2]

/-- Storing under a key that the map holds leaves the keys as they are. -/
theorem mapSet_keys_of_mem {κ ν : Type} [DecidableEq κ] (m : GoMap κ ν) (k : κ) (v : ν)
    (hk : k ∈ m.map Prod.fst) : (mapSet m k v).map Prod.fst = m.map Prod.fst := by
  induction m with
  | nil => simp at hk
  | cons q qs ih =>
    obtain ⟨k', v'⟩ := q
    by_cases h : k' = k
    · simp [mapSet, h]
    · simp only [List.map_cons, List.mem_cons] at hk
      rcases hk with hk | hk
      · exact absurd hk.symm h
      · simp [mapSet, h, ih hk]

/-- No key occurs twice after a store if none did before. -/
theorem mapSet_keys_nodup {κ ν : Type} [DecidableEq κ] (m : GoMap κ ν) (k : κ) (v : ν)
    (hm : (m.map Prod.fst).Nodup) : ((mapSet m k v).map Prod.fst).Nodup := by
  by_cases hk : k ∈ m.map Prod.fst
  · rw [mapSet_keys_of_mem m k v hk]; exact hm
  · rw [mapSet_keys_of_not_mem m k v hk]
    exact List.Nodup.append hm (List.nodup_singleton k) (by
      intro a ha hb
      simp only [List.mem_singleton] at hb
      exact hk (hb ▸ ha))

theorem mem_keys_of_mapGet {κ ν : Type} [DecidableEq κ] (m : GoMap κ ν) (k : κ) (v : ν)
    (h : mapGet m k = some v) : k ∈ m.map Prod.fst := by
  induction m with
  | nil => simp [mapGet] at h
  | cons q qs ih =>
    obtain ⟨k', v'⟩ := q
    by_cases hk : k' = k
    · simp [hk]
    · simp only [mapGet, hk, if_false] at h
      simp [ih h]

/-! ### Aggregator: the two loops -/

theorem Outcome.bind_eq_ok {α β : Type} (o : Outcome α) (f : α → Outcome β) (r : β)
    (h : o.bind f = .ok r) : ∃ v, o = .ok v ∧ f v = .ok r := by
  cases o with
  | ok v => exact ⟨v, rfl, h⟩
  | error e => cases h
  | panic => cases h

/-- The cells a completed cell loop leaves, when the columns have pairwise
distinct altitudes, none of them yet in the map: the keys are those of the map
followed by the altitudes of the columns, keys outside the columns keep their
value, and under each column's altitude lies the cell decoded from that
column's slice of the row. -/
theorem cellLoop_ok (row : GoString) (negAbove : Int) (cols : List DataHeaderInfo)
    (m cells : GoMap Int WindTempData)
    (hok : cellLoop row negAbove cols m = .ok cells)
    (hnodup : (cols.map (fun c => c.Altitude)).Nodup)
    (hfresh : ∀ c ∈ cols, c.Altitude ∉ m.map Prod.fst) :
    cells.map Prod.fst = m.map Prod.fst ++ cols.map (fun c => c.Altitude) ∧
    (∀ k, k ∉ cols.map (fun c => c.Altitude) → mapGet cells k = mapGet m k) ∧
    ∀ c ∈ cols, ∃ text cell, slice row c.StartIdx c.EndIdx = .ok text ∧
      ProcessWindTempEntry text c.Altitude negAbove = .ok cell ∧
      mapGet cells c.Altitude = some cell := by
  induction cols generalizing m with
  | nil =>
    simp only [cellLoop, Outcome.ok.injEq] at hok
    subst hok
    simp
  | cons c cs ih =>
    rw [cellLoop] at hok
    obtain ⟨text, htext, hok⟩ := Outcome.bind_eq_ok _ _ _ hok
    obtain ⟨cell, hcell, hok⟩ := Outcome.bind_eq_ok _ _ _ hok
    simp only [List.map_cons, List.nodup_cons] at hnodup
    have hc : c.Altitude ∉ m.map Prod.fst := hfresh c (List.mem_cons_self _ _)
    have hkeys := mapSet_keys_of_not_mem m c.Altitude cell hc
    have hfresh' : ∀ d ∈ cs, d.Altitude ∉ (mapSet m c.Altitude cell).map Prod.fst := by
      intro d hd
      rw [hkeys]
      simp only [List.mem_append, List.mem_singleton, not_or]
      refine ⟨hfresh d (List.mem_cons_of_mem _ hd), ?_⟩
      intro heq
      exact hnodup.1 (heq ▸ List.mem_map_of_mem (fun c => c.Altitude) hd)
    obtain ⟨ih1, ih2, ih3⟩ := ih (mapSet m c.Altitude cell) hok hnodup.2 hfresh'
    refine ⟨?_, ?_, ?_⟩
    · rw [ih1, hkeys]; simp
    · intro k hk
      simp only [List.map_cons, List.mem_cons, not_or] at hk
      rw [ih2 k hk.2, mapGet_mapSet_ne _ _ _ _ hk.1]
    · intro d hd
      simp only [List.mem_cons] at hd
      rcases hd with rfl | hd
      · exact ⟨text, cell, htext, hcell, by rw [ih2 _ hnodup.1, mapGet_mapSet_same]⟩
      · exact ih3 d hd

/-- Every record a completed row loop leaves was in the map before or is the
record of the cells decoded from one of the rows. -/
theorem rowLoop_records (cols : List DataHeaderInfo) (negAbove : Int) (rows : List GoString)
    (locs out : GoMap GoString LocationWindTempData)
    (hok : rowLoop cols negAbove rows locs = .ok out) :
    ∀ p ∈ out, p ∈ locs ∨ ∃ row ∈ rows, ∃ cells,
      cellLoop row negAbove cols [] = .ok cells ∧ p.2 = { AltitudeWindTemp := cells } := by
  induction rows generalizing locs with
  | nil =>
    simp only [rowLoop, Outcome.ok.injEq] at hok
    subst hok
    intro p hp; exact Or.inl hp
  | cons row rows ih =>
    rw [rowLoop] at hok
    split at hok
    · intro p hp
      rcases ih locs hok p hp with h | ⟨r, hr, h⟩
      · exact Or.inl h
      · exact Or.inr ⟨r, List.mem_cons_of_mem _ hr, h⟩
    · obtain ⟨loc, hloc, hok⟩ := Outcome.bind_eq_ok _ _ _ hok
      obtain ⟨cells, hcells, hok⟩ := Outcome.bind_eq_ok _ _ _ hok
      intro p hp
      rcases ih _ hok p hp with h | ⟨r, hr, h⟩
      · rcases mem_mapSet _ _ _ _ h with h1 | h1
        · exact Or.inl h1
        · exact Or.inr ⟨row, List.mem_cons_self _ _, cells, hcells, by rw [h1]⟩
      · exact Or.inr ⟨r, List.mem_cons_of_mem _ hr, h⟩

/-- A completed aggregation parsed the validity line and completed the row
loop, and its result holds what the two returned. -/
theorem aggregateComponents_ok (validHeader altitudeHeader : GoString)
    (windTempData : List GoString) (issuanceTime : GoString) (result : WindAloftData)
    (hok : aggregateComponents validHeader altitudeHeader windTempData issuanceTime
      = .ok result) :
    ∃ info, ExtractValidLineInfo validHeader = .ok info ∧
      rowLoop (ProcessAltitudeHeader altitudeHeader) info.NegAbove windTempData []
        = .ok result.LocationWindTempData := by
  unfold aggregateComponents at hok
  obtain ⟨info, hinfo, hok⟩ := Outcome.bind_eq_ok _ _ _ hok
  obtain ⟨locs, hlocs, hok⟩ := Outcome.bind_eq_ok _ _ _ hok
  simp only [Outcome.ok.injEq] at hok
  subst hok
  exact ⟨info, hinfo, hlocs⟩

/-! ### Aggregator: one cell per column, last row wins -/

/-- The cell the decoder returns carries the altitude it was given. -/
theorem ProcessWindTempEntry_altitude (entry : GoString) (altitude negAbove : Int)
    (cell : WindTempData) (h : ProcessWindTempEntry entry altitude negAbove = .ok cell) :
    cell.Altitude = altitude := by
  unfold ProcessWindTempEntry at h
  split at h
  · simp only [Outcome.ok.injEq] at h
    rw [← h]
  · obtain ⟨dd, _, h⟩ := Outcome.bind_eq_ok _ _ _ h
    obtain ⟨ss, _, h⟩ := Outcome.bind_eq_ok _ _ _ h
    obtain ⟨temp, _, h⟩ := Outcome.bind_eq_ok _ _ _ h
    simp only [Outcome.ok.injEq] at h
    rw [← h]

/-- C13 (as stated, refuted). The header "FT  3000 03000" yields two columns,
both with altitude 3000; on the row "ABC 2310 241500" the aggregation
completes and the record of "ABC" holds one cell, the second column's having
overwritten the first's under the key 3000. -/
theorem C13_repeated_altitude_one_cell :
    aggregateComponents scenarioValidLine repeatedAltitudeHeader [repeatedAltitudeRow] [] =
      .ok { ValidInfo := ⟨"151200".toList, "1300".toList, "2400".toList, 2000⟩,
            AltitudeHeaderInfo := [⟨3000, 4, 8⟩, ⟨3000, 9, 14⟩],
            IssuanceTime := [],
            LocationWindTempData := [("ABC".toList, { AltitudeWindTemp :=
              [(3000, ⟨F64.ofInt 240, F64.ofInt 15, F64.ofInt (-50), 3000⟩)] })] } ∧
    (ProcessAltitudeHeader repeatedAltitudeHeader).length = 2 := by
  decide

/-- C13 (amended). For every validity line, header line and list of data rows
on which the aggregation completes, if the columns returned by
`ProcessAltitudeHeader` have pairwise distinct altitudes, every location
record of the result holds exactly one cell per column: the altitudes under
which it holds cells are those of the columns, once each, and under each
column's altitude lies the cell decoded from that column's slice of a row. -/
theorem C13_one_cell_per_column (validLine header : GoString) (rows : List GoString)
    (issuanceTime : GoString) (result : WindAloftData)
    (hok : aggregateComponents validLine header rows issuanceTime = .ok result)
    (hdistinct : ((ProcessAltitudeHeader header).map (fun c => c.Altitude)).Nodup) :
    ∀ p ∈ result.LocationWindTempData,
      p.2.AltitudeWindTemp.length = (ProcessAltitudeHeader header).length ∧
      p.2.AltitudeWindTemp.map Prod.fst =
        (ProcessAltitudeHeader header).map (fun c => c.Altitude) ∧
      ∀ c ∈ ProcessAltitudeHeader header, ∃ cell,
        mapGet p.2.AltitudeWindTemp c.Altitude = some cell ∧ cell.Altitude = c.Altitude := by
  obtain ⟨info, _, hrows⟩ := aggregateComponents_ok _ _ _ _ _ hok
  intro p hp
  rcases rowLoop_records _ _ _ _ _ hrows p hp with h | ⟨row, _, cells, hcells, hrec⟩
  · simp at h
  · obtain ⟨h1, _, h3⟩ := cellLoop_ok row info.NegAbove _ [] cells hcells hdistinct (by simp)
    rw [hrec]
    simp only [List.map_nil, List.nil_append] at h1
    refine ⟨?_, h1, ?_⟩
    · have := congrArg List.length h1
      simpa using this
    · intro c hc
      obtain ⟨text, cell, _, hcell, hget⟩ := h3 c hc
      exact ⟨cell, hget, ProcessWindTempEntry_altitude _ _ _ _ hcell⟩

/-- C13 (amended), on the scenario: the record of "ABC" holds three cells, under
3000, 6000 and 9000. -/
theorem C13_one_cell_per_column_witness :
    aggregateComponents scenarioValidLine scenarioHeader [scenarioRow] [] =
      .ok { ValidInfo := ⟨"151200".toList, "1300".toList, "2400".toList, 2000⟩,
            AltitudeHeaderInfo := [⟨3000, 4, 8⟩, ⟨6000, 9, 13⟩, ⟨9000, 14, 18⟩],
            IssuanceTime := [],
            LocationWindTempData := [("ABC".toList, { AltitudeWindTemp := scenarioCells })] } ∧
    ((ProcessAltitudeHeader scenarioHeader).map (fun c => c.Altitude)).Nodup ∧
    ∀ p ∈ [("ABC".toList, LocationWindTempData.mk scenarioCells)],
      p.2.AltitudeWindTemp.length = (ProcessAltitudeHeader scenarioHeader).length ∧
      p.2.AltitudeWindTemp.map Prod.fst =
        (ProcessAltitudeHeader scenarioHeader).map (fun c => c.Altitude) ∧
      ∀ c ∈ ProcessAltitudeHeader scenarioHeader, ∃ cell,
        mapGet p.2.AltitudeWindTemp c.Altitude = some cell ∧ cell.Altitude = c.Altitude :=
  ⟨by decide, by decide,
    C13_one_cell_per_column scenarioValidLine scenarioHeader [scenarioRow] []
      { ValidInfo := ⟨"151200".toList, "1300".toList, "2400".toList, 2000⟩,
        AltitudeHeaderInfo := [⟨3000, 4, 8⟩, ⟨6000, 9, 13⟩, ⟨9000, 14, 18⟩],
        IssuanceTime := [],
        LocationWindTempData := [("ABC".toList, { AltitudeWindTemp := scenarioCells })] }
      (by decide) (by decide)⟩

theorem slice_zero_eq_take (s t : GoString) (n : Nat) (h : slice s 0 n = .ok t) :
    t = s.take n := by
  unfold slice at h
  split at h
  · simp only [Outcome.ok.injEq] at h
    rw [← h]; simp
  · cases h

/-- The row loop over two lists of rows in a row is the loop over the first
followed by the loop over the second. -/
theorem rowLoop_append (cols : List DataHeaderInfo) (negAbove : Int) (rows₁ rows₂ : List GoString)
    (locs : GoMap GoString LocationWindTempData) :
    rowLoop cols negAbove (rows₁ ++ rows₂) locs =
      (rowLoop cols negAbove rows₁ locs).bind fun mid => rowLoop cols negAbove rows₂ mid := by
  induction rows₁ generalizing locs with
  | nil => simp [rowLoop]
  | cons row rows ih =>
    simp only [List.cons_append, rowLoop]
    split
    · exact ih locs
    · cases h1 : slice row 0 3 with
      | ok loc =>
        simp only [Outcome.bind_ok]
        cases h2 : cellLoop row negAbove cols [] with
        | ok cells => simp only [Outcome.bind_ok]; exact ih _
        | error e => rfl
        | panic => rfl
      | error e => rfl
      | panic => rfl

/-- The row loop keeps the keys of the map free of repetitions. -/
theorem rowLoop_keys_nodup (cols : List DataHeaderInfo) (negAbove : Int) (rows : List GoString)
    (locs out : GoMap GoString LocationWindTempData)
    (hok : rowLoop cols negAbove rows locs = .ok out) (hlocs : (locs.map Prod.fst).Nodup) :
    (out.map Prod.fst).Nodup := by
  induction rows generalizing locs with
  | nil =>
    simp only [rowLoop, Outcome.ok.injEq] at hok
    subst hok; exact hlocs
  | cons row rows ih =>
    rw [rowLoop] at hok
    split at hok
    · exact ih locs hok hlocs
    · obtain ⟨loc, _, hok⟩ := Outcome.bind_eq_ok _ _ _ hok
      obtain ⟨cells, _, hok⟩ := Outcome.bind_eq_ok _ _ _ hok
      exact ih _ hok (mapSet_keys_nodup _ _ _ hlocs)

/-- Rows that begin with other location codes leave the record of `code` as it
is. -/
theorem rowLoop_other_codes (cols : List DataHeaderInfo) (negAbove : Int) (rows : List GoString)
    (locs out : GoMap GoString LocationWindTempData) (code : GoString)
    (hok : rowLoop cols negAbove rows locs = .ok out)
    (hrows : ∀ r ∈ rows, r ≠ [] → r.take 3 ≠ code) :
    mapGet out code = mapGet locs code := by
  induction rows generalizing locs with
  | nil =>
    simp only [rowLoop, Outcome.ok.injEq] at hok
    subst hok; rfl
  | cons row rows ih =>
    have hrows' : ∀ r ∈ rows, r ≠ [] → r.take 3 ≠ code := fun r hr =>
      hrows r (List.mem_cons_of_mem _ hr)
    rw [rowLoop] at hok
    split at hok
    · exact ih locs hok hrows'
    · rename_i hlen
      obtain ⟨loc, hloc, hok⟩ := Outcome.bind_eq_ok _ _ _ hok
      obtain ⟨cells, _, hok⟩ := Outcome.bind_eq_ok _ _ _ hok
      have hne : row ≠ [] := by
        intro h; apply hlen; simp [h]
      have hloc' : loc = row.take 3 := slice_zero_eq_take row loc 3 hloc
      have hcode : code ≠ loc := by
        rw [hloc']; exact fun h => hrows row (List.mem_cons_self _ _) hne h.symm
      rw [ih _ hok hrows', mapGet_mapSet_ne _ _ _ _ hcode]

/-- A map without repeated keys has exactly one pair under a key it holds. -/
theorem one_pair_of_nodup_keys {κ ν : Type} [DecidableEq κ] (m : GoMap κ ν) (k : κ)
    (hm : (m.map Prod.fst).Nodup) (hk : k ∈ m.map Prod.fst) :
    (m.filter (fun p => decide (p.1 = k))).length = 1 := by
  induction m with
  | nil => simp at hk
  | cons q qs ih =>
    simp only [List.map_cons, List.nodup_cons] at hm
    by_cases hq : q.1 = k
    · have hnone : qs.filter (fun p => decide (p.1 = k)) = [] := by
        rw [List.filter_eq_nil_iff]
        intro p hp
        simp only [decide_eq_true_eq]
        intro hpk
        exact hm.1 (by rw [hq, ← hpk]; exact List.mem_map_of_mem Prod.fst hp)
      simp [List.filter_cons, hq, hnone]
    · simp only [List.map_cons, List.mem_cons] at hk
      rcases hk with hk | hk
      · exact absurd hk.symm hq
      · simp [List.filter_cons, hq, ih hm.2 hk]

/-- C16. For every list of data rows on which the aggregation completes and
every location code with which a non-empty row begins, the result maps that
code to the record decoded from the last row that begins with it, alone (the
cells of earlier rows with the same code are overwritten, not merged), and the
code appears once in the mapping. -/
theorem C16_last_row_wins (validLine header : GoString) (before after : List GoString)
    (lastRow code issuanceTime : GoString) (result : WindAloftData)
    (hne : lastRow ≠ []) (hcode : lastRow.take 3 = code)
    (hafter : ∀ r ∈ after, r ≠ [] → r.take 3 ≠ code)
    (hok : aggregateComponents validLine header (before ++ lastRow :: after) issuanceTime
      = .ok result) :
    ∃ info cells, ExtractValidLineInfo validLine = .ok info ∧
      cellLoop lastRow info.NegAbove (ProcessAltitudeHeader header) [] = .ok cells ∧
      mapGet result.LocationWindTempData code = some { AltitudeWindTemp := cells } ∧
      (result.LocationWindTempData.filter (fun p => decide (p.1 = code))).length = 1 := by
  obtain ⟨info, hinfo, hrows⟩ := aggregateComponents_ok _ _ _ _ _ hok
  have hnodup := rowLoop_keys_nodup _ _ _ _ _ hrows (by simp)
  rw [rowLoop_append] at hrows
  obtain ⟨mid, _, hrest⟩ := Outcome.bind_eq_ok _ _ _ hrows
  rw [rowLoop] at hrest
  have hlen : ¬ lastRow.length = 0 := by
    intro h; exact hne (List.length_eq_zero.mp h)
  rw [if_neg hlen] at hrest
  obtain ⟨loc, hloc, hrest⟩ := Outcome.bind_eq_ok _ _ _ hrest
  obtain ⟨cells, hcells, hrest⟩ := Outcome.bind_eq_ok _ _ _ hrest
  have hloc' : loc = code := by rw [← hcode]; exact slice_zero_eq_take lastRow loc 3 hloc
  subst hloc'
  have hget : mapGet result.LocationWindTempData loc = some { AltitudeWindTemp := cells } := by
    rw [rowLoop_other_codes _ _ _ _ _ loc hrest hafter, mapGet_mapSet_same]
  exact ⟨info, cells, hinfo, hcells, hget,
    one_pair_of_nodup_keys _ _ hnodup (mem_keys_of_mapGet _ _ _ hget)⟩

/-- C16, on two rows with the code "ABC": the record is the one decoded from
the second row. -/
theorem C16_last_row_wins_witness :
    ∃ info cells, ExtractValidLineInfo scenarioValidLine = .ok info ∧
      cellLoop "ABC 0905 1010 1115".toList info.NegAbove (ProcessAltitudeHeader scenarioHeader) []
        = .ok cells ∧
      mapGet [("ABC".toList, LocationWindTempData.mk
          [(3000, ⟨F64.ofInt 90, F64.ofInt 5, F64.maxFloat64, 3000⟩),
           (6000, ⟨F64.ofInt 100, F64.ofInt 10, F64.maxFloat64, 6000⟩),
           (9000, ⟨F64.ofInt 110, F64.ofInt 15, F64.maxFloat64, 9000⟩)])] "ABC".toList
        = some { AltitudeWindTemp := cells } ∧
      ([("ABC".toList, LocationWindTempData.mk
          [(3000, ⟨F64.ofInt 90, F64.ofInt 5, F64.maxFloat64, 3000⟩),
           (6000, ⟨F64.ofInt 100, F64.ofInt 10, F64.maxFloat64, 6000⟩),
           (9000, ⟨F64.ofInt 110, F64.ofInt 15, F64.maxFloat64, 9000⟩)])].filter
        (fun p => decide (p.1 = "ABC".toList))).length = 1 :=
  C16_last_row_wins scenarioValidLine scenarioHeader ["ABC 2310 2415 2620".toList] []
    "ABC 0905 1010 1115".toList "ABC".toList []
    { ValidInfo := ⟨"151200".toList, "1300".toList, "2400".toList, 2000⟩,
      AltitudeHeaderInfo := [⟨3000, 4, 8⟩, ⟨6000, 9, 13⟩, ⟨9000, 14, 18⟩],
      IssuanceTime := [],
      LocationWindTempData := [("ABC".toList, LocationWindTempData.mk
          [(3000, ⟨F64.ofInt 90, F64.ofInt 5, F64.maxFloat64, 3000⟩),
           (6000, ⟨F64.ofInt 100, F64.ofInt 10, F64.maxFloat64, 6000⟩),
           (9000, ⟨F64.ofInt 110, F64.ofInt 15, F64.maxFloat64, 9000⟩)])] }
    (by decide) (by decide) (by decide) (by decide)

/-! ### Altitude header parser: the columns token by token -/

/-- The loop produces the columns of the altitude tokens among the fields. -/
theorem headerLoop_eq_columnsOf (header : GoString) (fs : List GoString) (last : Int) :
    headerLoop header fs last [] =
      columnsOf header (fs.filter (fun f => decide (f.length > 1 ∧ f ≠ "FT".toList))) last := by
  induction fs generalizing last with
  | nil => simp [headerLoop, columnsOf]
  | cons f fs ih =>
    unfold headerLoop
    split
    · rename_i hq
      rw [headerLoop_append, ih, List.filter_cons_of_pos (by simpa using hq)]
      simp [columnsOf]
    · rename_i hq
      rw [ih, List.filter_cons_of_neg (by simpa using hq)]

theorem ProcessAltitudeHeader_eq_columnsOf (header : GoString) :
    ProcessAltitudeHeader header = columnsOf header (altitudeTokens header) 3 :=
  headerLoop_eq_columnsOf header _ 3

theorem columnsOf_forall₂ (header : GoString) (toks : List GoString) (cursor : Int) :
    List.Forall₂ (fun (c : DataHeaderInfo) (f : GoString) =>
        c.Altitude = ParseInt (TrimSpace f) ∧ c.EndIdx = stringsIndex header f + f.length)
      (columnsOf header toks cursor) toks := by
  induction toks generalizing cursor with
  | nil => exact List.Forall₂.nil
  | cons f fs ih => exact List.Forall₂.cons ⟨rfl, rfl⟩ (ih _)

theorem columnsOf_startIdx (header : GoString) (toks : List GoString) (cursor : Int) :
    (columnsOf header toks cursor).map (fun c => c.StartIdx) =
      ((cursor :: (columnsOf header toks cursor).map (fun c => c.EndIdx)).dropLast).map
        (fun e => e + 1) := by
  induction toks generalizing cursor with
  | nil => simp [columnsOf]
  | cons f fs ih =>
    simp only [columnsOf, List.map_cons, List.dropLast_cons₂]
    rw [ih]

theorem le_foldl_digits (s : GoString) (n : Nat) :
    n ≤ s.foldl (fun n c => n * 10 + digitVal c) n := by
  induction s generalizing n with
  | nil => simp
  | cons c cs ih =>
    simp only [List.foldl_cons]
    exact le_trans (by omega) (ih _)

/-- The digit loop of `ParseUint` on a run of digits whose value stays below
2^63. -/
theorem parseUintLoop_digits (s : GoString) (n : Nat) (hs : ∀ c ∈ s, c.isDigit = true)
    (hv : s.foldl (fun n c => n * 10 + digitVal c) n < 2 ^ 63) :
    parseUintLoop s n = .value (s.foldl (fun n c => n * 10 + digitVal c) n) := by
  induction s generalizing n with
  | nil => simp [parseUintLoop]
  | cons c cs ih =>
    simp only [List.foldl_cons] at hv ⊢
    have hc : c.isDigit = true := hs c (List.mem_cons_self _ _)
    have hle := le_foldl_digits cs (n * 10 + digitVal c)
    have h1 : ¬ uintCutoff ≤ n := by unfold uintCutoff; omega
    have h2 : ¬ 2 ^ 64 - 1 < n * 10 + digitVal c := by omega
    rw [parseUintLoop, if_pos hc, if_neg h1, if_neg h2]
    exact ih _ (fun d hd => hs d (List.mem_cons_of_mem _ hd)) hv

/-- `ParseInt` on a non-empty run of digits whose value is below 2^63. -/
theorem ParseInt_digits (s : GoString) (hne : s ≠ []) (hs : ∀ c ∈ s, c.isDigit = true)
    (hv : digitsValue s < 2 ^ 63) : ParseInt s = (digitsValue s : Int) := by
  cases s with
  | nil => exact absurd rfl hne
  | cons c cs =>
    have hc : c.isDigit = true := hs c (List.mem_cons_self _ _)
    have hloop := parseUintLoop_digits (c :: cs) 0 hs hv
    have hv' : ¬ 2 ^ 63 ≤ digitsValue (c :: cs) := by omega
    simp only [ParseInt, isDigit_ne_plus hc, isDigit_ne_minus hc, or_self, if_false, ParseUint,
      List.cons_ne_nil, hloop, decide_False, true_and]
    unfold digitsValue at hv' ⊢
    rw [if_neg hv']
    simp

theorem trimLeftWith_of_no_match (runes : List GoString) (fuel : Nat) (s : GoString)
    (h : ∀ r ∈ runes, r.isPrefixOf s = false) : trimLeftWith runes fuel s = s := by
  cases fuel with
  | zero => rfl
  | succ n =>
    have hnone : runes.find? (fun r => r.isPrefixOf s) = none := by
      rw [List.find?_eq_none]
      intro r hr
      simp [h r hr]
    simp only [trimLeftWith, hnone]

theorem not_isPrefixOf_of_head (r s : GoString) (h : r.head?.map Char.isDigit = some false)
    (hs : ∀ c ∈ s, c.isDigit = true) : r.isPrefixOf s = false := by
  cases r with
  | nil => simp at h
  | cons x xs =>
    simp only [List.head?_cons, Option.map_some', Option.some.injEq] at h
    cases s with
    | nil => rfl
    | cons c cs =>
      have hc : c.isDigit = true := hs c (List.mem_cons_self _ _)
      have hne : x ≠ c := by
        rintro rfl; rw [h] at hc; cases hc
      simp [List.isPrefixOf, hne]

/-- `TrimSpace` leaves a run of digits as it is. -/
theorem TrimSpace_digits (s : GoString) (hs : ∀ c ∈ s, c.isDigit = true) : TrimSpace s = s := by
  have hL : ∀ r ∈ spaceRunes, r.head?.map Char.isDigit = some false := by decide
  have hR : ∀ r ∈ spaceRunes.map List.reverse, r.head?.map Char.isDigit = some false := by decide
  have h1 : trimLeftWith spaceRunes s.length s = s :=
    trimLeftWith_of_no_match _ _ _ (fun r hr => not_isPrefixOf_of_head r s (hL r hr) hs)
  have hs' : ∀ c ∈ s.reverse, c.isDigit = true := fun c hc => hs c (List.mem_reverse.mp hc)
  have h2 : trimLeftWith (spaceRunes.map List.reverse) s.length s.reverse = s.reverse :=
    trimLeftWith_of_no_match _ _ _ (fun r hr => not_isPrefixOf_of_head r _ (hR r hr) hs')
  simp only [TrimSpace, h1, h2, List.reverse_reverse]

/-- The altitude stored for a token that has a decimal value below 2^63 is that
value. -/
theorem ParseInt_TrimSpace_of_decimalValue (f : GoString) (n : Nat)
    (hf : decimalValue f = some n) (hn : n < 2 ^ 63) : ParseInt (TrimSpace f) = (n : Int) := by
  unfold decimalValue at hf
  split at hf
  · rename_i h
    simp only [Option.some.injEq] at hf
    subst hf
    have hs : ∀ c ∈ f, c.isDigit = true := by simpa [List.all_eq_true] using h.2
    rw [TrimSpace_digits f hs, ParseInt_digits f h.1 hs hn]
  · cases hf

/-- With fewer than twenty digits read or to come, the digit loop of
`ParseUint` meets no range error: it reports a syntax error exactly when a
byte is no digit. -/
theorem parseUintLoop_malformed_iff (s : GoString) (n k : Nat) (hn : n < 10 ^ k)
    (hk : s.length + k ≤ 19) :
    parseUintLoop s n = .malformed ↔ s.all Char.isDigit = false := by
  induction s generalizing n k with
  | nil => simp [parseUintLoop]
  | cons c cs ih =>
    simp only [List.length_cons] at hk
    have hk18 : k ≤ 18 := by omega
    have h18 : (10 : Nat) ^ k ≤ 10 ^ 18 := Nat.pow_le_pow_right (by decide) hk18
    by_cases hc : c.isDigit = true
    · have hd9 : digitVal c ≤ 9 := by
        rw [isDigit_iff] at hc; unfold digitVal; omega
      have h1 : ¬ uintCutoff ≤ n := by unfold uintCutoff; omega
      have h2 : ¬ 2 ^ 64 - 1 < n * 10 + digitVal c := by omega
      have hn1 : n * 10 + digitVal c < 10 ^ (k + 1) := by
        rw [pow_succ]; omega
      rw [parseUintLoop, if_pos hc, if_neg h1, if_neg h2,
        ih (n * 10 + digitVal c) (k + 1) hn1 (by omega)]
      simp [hc]
    · have hc0 : c.isDigit = false := by simpa using hc
      rw [parseUintLoop, if_neg hc]
      simp [hc0]

/-- On a string of at most 19 bytes `strconv.ParseInt` reports no syntax error
exactly when the string is an optional sign followed by one or more decimal
digits. -/
theorem isBase10_eq_isDecimalInteger (s : GoString) (h : s.length ≤ 19) :
    isBase10 s = isDecimalInteger s := by
  cases s with
  | nil => rfl
  | cons c cs =>
    simp only [isBase10, isDecimalInteger]
    generalize hb : (if c = '+' ∨ c = '-' then cs else c :: cs) = body
    have hlen : body.length ≤ 19 := by
      rw [← hb]; split
      · simp only [List.length_cons] at h; omega
      · exact h
    unfold ParseUint
    by_cases hnil : body = []
    · simp [hnil]
    · have hm := parseUintLoop_malformed_iff body 0 0 (by decide) (by omega)
      rw [if_neg hnil]
      by_cases hall : body.all Char.isDigit = true
      · have : parseUintLoop body 0 ≠ .malformed := by
          intro hh; rw [hm] at hh; rw [hall] at hh; cases hh
        simp [hnil, this, hall]
      · have hall0 : body.all Char.isDigit = false := by simpa using hall
        have : parseUintLoop body 0 = .malformed := hm.2 hall0
        simp [hnil, this, hall0]

/-- The header "FT 99999999999999999999x": the parse of its altitude token ends
with a range error at the twentieth digit, before the letter is reached, so no
syntax error is reported and the altitude is the largest `int64`. -/
theorem ProcessAltitudeHeader_range_error_first :
    altitudeTokens hugeTokenLetterHeader = ["99999999999999999999x".toList] ∧
    isBase10 (TrimSpace "99999999999999999999x".toList) = true ∧
    isDecimalInteger (TrimSpace "99999999999999999999x".toList) = false ∧
    ProcessAltitudeHeader hugeTokenLetterHeader = [⟨9223372036854775807, 4, 24⟩] := by
  decide

/-- C18 (as stated, refuted). The header "FT 99999999999999999999" has one
altitude token, whose decimal value is 99999999999999999999, and the column
returned for it has the altitude 9223372036854775807, the largest `int64`.
The header "FT  3000 FL450" has the altitude token "FL450", which has no
decimal value, and the column returned for it has the altitude 0. -/
theorem C18_altitude_not_decimal_value :
    altitudeTokens hugeTokenHeader = ["99999999999999999999".toList] ∧
    decimalValue "99999999999999999999".toList = some 99999999999999999999 ∧
    ProcessAltitudeHeader hugeTokenHeader = [⟨9223372036854775807, 4, 23⟩] ∧
    altitudeTokens flightLevelHeader = ["3000".toList, "FL450".toList] ∧
    decimalValue "FL450".toList = none ∧
    ProcessAltitudeHeader flightLevelHeader = [⟨3000, 4, 8⟩, ⟨0, 9, 14⟩] := by
  decide

/-- C18 (amended). For every header line, `ProcessAltitudeHeader` returns
exactly one column per space-separated token that is longer than one byte and
not equal to "FT", in header order. Each column's `EndIdx` is the index of the
token's first occurrence in the header plus the token's length; its `Altitude`
is the decimal value of the token when the token is a run of decimal digits
with a value below 2^63 (`int` being 64 bits wide), and 0 when
`strconv.ParseInt` reports a syntax error for the token, white space trimmed,
as it does for "FL450"; and the `StartIdx` of the columns are one past the
`EndIdx` of the column before, the running end index being 3 before the first
column. The header "FT  3000 6000 9000" yields (3000, 4, 8), (6000, 9, 13) and
(9000, 14, 18). -/
theorem C18_one_column_per_token (header : GoString) :
    List.Forall₂ (fun (c : DataHeaderInfo) (f : GoString) =>
        c.EndIdx = stringsIndex header f + f.length ∧
        (∀ n, decimalValue f = some n → n < 2 ^ 63 → c.Altitude = (n : Int)) ∧
        (isBase10 (TrimSpace f) = false → c.Altitude = 0))
      (ProcessAltitudeHeader header) (altitudeTokens header) ∧
    (ProcessAltitudeHeader header).map (fun c => c.StartIdx) =
      (((3 : Int) :: (ProcessAltitudeHeader header).map (fun c => c.EndIdx)).dropLast).map
        (fun e => e + 1) ∧
    isBase10 (TrimSpace "FL450".toList) = false ∧
    ProcessAltitudeHeader scenarioHeader = [⟨3000, 4, 8⟩, ⟨6000, 9, 13⟩, ⟨9000, 14, 18⟩] := by
  rw [ProcessAltitudeHeader_eq_columnsOf]
  refine ⟨?_, columnsOf_startIdx header _ 3, by decide, by decide⟩
  refine List.Forall₂.imp ?_ (columnsOf_forall₂ header (altitudeTokens header) 3)
  rintro c f ⟨halt, hend⟩
  refine ⟨hend, ?_, ?_⟩
  · intro n hn hlt
    rw [halt]; exact ParseInt_TrimSpace_of_decimalValue f n hn hlt
  · intro hbad
    rw [halt]; exact ParseInt_of_not_isBase10 _ hbad

/-- When every altitude token is found at its own position and the running
index does not exceed the offset of the next field, each column ends just past
its own token and is a non-empty slice. -/
theorem headerLoop_own_token (header : GoString) (fs : List GoString) (b : Nat) (last : Int)
    (hlast : last ≤ b)
    (H : ∀ p ∈ fieldOffsets fs b, p.2.length > 1 → p.2 ≠ "FT".toList →
      stringsIndex header p.2 = (p.1 : Int)) :
    List.Forall₂ (fun (c : DataHeaderInfo) (p : Nat × GoString) =>
        c.EndIdx = ((p.1 + p.2.length : Nat) : Int) ∧ c.StartIdx < c.EndIdx)
      (headerLoop header fs last [])
      ((fieldOffsets fs b).filter (fun p => decide (p.2.length > 1 ∧ p.2 ≠ "FT".toList))) := by
  induction fs generalizing b last with
  | nil => simp [headerLoop, fieldOffsets]
  | cons f fs ih =>
    have Htail : ∀ p ∈ fieldOffsets fs (b + f.length + 1), p.2.length > 1 → p.2 ≠ "FT".toList →
        stringsIndex header p.2 = (p.1 : Int) := fun p hp =>
      H p (by simp [fieldOffsets, hp])
    unfold headerLoop
    simp only [fieldOffsets]
    split
    · rename_i hq
      have hidx : stringsIndex header f = (b : Int) := H (b, f) (by simp [fieldOffsets]) hq.1 hq.2
      rw [headerLoop_append, List.filter_cons_of_pos (by simpa using hq)]
      simp only [List.nil_append, List.singleton_append, hidx]
      have hlen : (2 : Int) ≤ (f.length : Int) := by have := hq.1; omega
      refine List.Forall₂.cons ⟨by push_cast; rfl, by simp only; omega⟩ ?_
      exact ih (b + f.length + 1) _ (by push_cast; omega) Htail
    · rename_i hq
      rw [List.filter_cons_of_neg (by simpa using hq)]
      exact ih (b + f.length + 1) last (by push_cast; omega) Htail

/-- C19. For every header line that begins with "FT " and in which no altitude
token occurs to the left of its own position, the columns returned by
`ProcessAltitudeHeader` correspond one by one to the altitude tokens, each
column has `EndIdx` equal to the index just past its own token and
`StartIdx < EndIdx`. Without the precondition this fails: in the header
"FT 12000 2000" the token "2000" lies at offset 9 and ends at 13, it occurs
earlier at offset 4, and its column has `EndIdx` 8. -/
theorem C19_columns_end_at_own_token (header : GoString) (hFT : "FT ".toList <+: header)
    (hown : NoEarlierOccurrence header) :
    List.Forall₂ (fun (c : DataHeaderInfo) (p : Nat × GoString) =>
        c.EndIdx = ((p.1 + p.2.length : Nat) : Int) ∧ c.StartIdx < c.EndIdx)
      (ProcessAltitudeHeader header) (altitudeTokenOffsets header) ∧
    ("FT ".toList <+: nestedTokenHeader ∧ ¬ NoEarlierOccurrence nestedTokenHeader ∧
      altitudeTokenOffsets nestedTokenHeader = [(3, "12000".toList), (9, "2000".toList)] ∧
      ProcessAltitudeHeader nestedTokenHeader = [⟨12000, 4, 8⟩, ⟨2000, 9, 8⟩]) := by
  refine ⟨?_, by decide, by decide, by decide, by decide⟩
  obtain ⟨t, rfl⟩ := hFT
  have hsplit : stringsSplit ' ' ("FT ".toList ++ t) = "FT".toList :: stringsSplit ' ' t := by
    cases hs : stringsSplit ' ' t with
    | nil => exact absurd hs (stringsSplit_ne_nil ' ' t)
    | cons g gs =>
      show stringsSplit ' ' ('F' :: 'T' :: ' ' :: t) = _
      simp [stringsSplit, hs]
  have H := stringsIndex_eq_own_offset _ hown
  rw [hsplit] at H
  have hfo : fieldOffsets ("FT".toList :: stringsSplit ' ' t) 0 =
      (0, "FT".toList) :: fieldOffsets (stringsSplit ' ' t) 3 := rfl
  have Htail : ∀ p ∈ fieldOffsets (stringsSplit ' ' t) 3, p.2.length > 1 → p.2 ≠ "FT".toList →
      stringsIndex ("FT ".toList ++ t) p.2 = (p.1 : Int) := fun p hp =>
    H p (by rw [hfo]; exact List.mem_cons_of_mem _ hp)
  unfold ProcessAltitudeHeader altitudeTokenOffsets
  rw [hsplit, hfo]
  have hskip : headerLoop ("FT ".toList ++ t) ("FT".toList :: stringsSplit ' ' t) 3 [] =
      headerLoop ("FT ".toList ++ t) (stringsSplit ' ' t) 3 [] := by
    rw [headerLoop]; simp
  rw [hskip, List.filter_cons_of_neg (by simp)]
  exact headerLoop_own_token ("FT ".toList ++ t) (stringsSplit ' ' t) 3 3 (by simp) Htail

/-- C19, on the header of the specification's scenario. -/
theorem C19_columns_end_at_own_token_witness :
    List.Forall₂ (fun (c : DataHeaderInfo) (p : Nat × GoString) =>
        c.EndIdx = ((p.1 + p.2.length : Nat) : Int) ∧ c.StartIdx < c.EndIdx)
      (ProcessAltitudeHeader scenarioHeader) (altitudeTokenOffsets scenarioHeader) ∧
    ("FT ".toList <+: nestedTokenHeader ∧ ¬ NoEarlierOccurrence nestedTokenHeader ∧
      altitudeTokenOffsets nestedTokenHeader = [(3, "12000".toList), (9, "2000".toList)] ∧
      ProcessAltitudeHeader nestedTokenHeader = [⟨12000, 4, 8⟩, ⟨2000, 9, 8⟩]) :=
  C19_columns_end_at_own_token scenarioHeader (by decide) (by decide)

/-! ### Regular expressions: which match the search returns -/

theorem RepOk_nil (cls : Char → Bool) (lo : Nat) (hi : Option Nat) (n : Nat) :
    RepOk cls lo hi [] n ↔ n = 0 ∧ lo = 0 := by
  unfold RepOk
  constructor
  · rintro ⟨h1, h2, _, _⟩
    simp only [List.length_nil, Nat.le_zero_eq] at h1
    subst h1
    exact ⟨rfl, by omega⟩
  · rintro ⟨rfl, rfl⟩
    exact ⟨by simp, le_refl _, fun m _ => Nat.zero_le _, by simp⟩

theorem RepOk_zero (cls : Char → Bool) (lo : Nat) (hi : Option Nat) (s : GoString) :
    RepOk cls lo hi s 0 ↔ lo = 0 := by
  unfold RepOk
  constructor
  · rintro ⟨_, h2, _, _⟩; omega
  · rintro rfl
    exact ⟨Nat.zero_le _, le_refl _, fun m _ => Nat.zero_le _, by simp⟩

theorem RepOk_succ (cls : Char → Bool) (lo : Nat) (hi : Option Nat) (c : Char) (cs : GoString)
    (n : Nat) :
    RepOk cls lo hi (c :: cs) (n + 1) ↔
      (cls c = true ∧ hi ≠ some 0) ∧ RepOk cls (lo - 1) (hi.map (· - 1)) cs n := by
  unfold RepOk
  constructor
  · rintro ⟨h1, h2, h3, h4⟩
    refine ⟨⟨h4 c (by simp), ?_⟩, ?_, ?_, ?_, ?_⟩
    · intro h0; have := h3 0 h0; omega
    · simpa using h1
    · omega
    · intro m hm
      cases hi with
      | none => simp at hm
      | some j =>
        simp only [Option.map_some', Option.some.injEq] at hm
        have := h3 j rfl
        omega
    · intro x hx; exact h4 x (by simp [hx])
  · rintro ⟨⟨hc, h0⟩, h1, h2, h3, h4⟩
    refine ⟨by simpa using h1, by omega, ?_, ?_⟩
    · intro m hm
      subst hm
      have := h3 (m - 1) (by simp)
      have : m ≠ 0 := fun h => h0 (by rw [h])
      omega
    · intro x hx
      simp only [List.take_succ_cons, List.mem_cons] at hx
      rcases hx with rfl | hx
      · exact hc
      · exact h4 x hx

/-- A greedy repetition followed by `k` fails exactly when `k` fails after
every run it may consume. -/
theorem matchRep_eq_none {β : Type} (cls : Char → Bool) (k : Nat → GoString → Option β)
    (lo : Nat) (hi : Option Nat) (pos : Nat) (s : GoString) :
    matchRep cls k lo hi pos s = none ↔
      ∀ n, RepOk cls lo hi s n → k (pos + n) (s.drop n) = none := by
  induction s generalizing lo hi pos with
  | nil =>
    simp only [matchRep, RepOk_nil]
    constructor
    · rintro h n ⟨rfl, hlo⟩
      simpa [hlo] using h
    · intro h
      by_cases hlo : lo = 0
      · simpa [hlo] using h 0 ⟨rfl, hlo⟩
      · simp [hlo]
  | cons c cs ih =>
    have hzero : (if lo = 0 then k pos (c :: cs) else none) = none ↔
        (RepOk cls lo hi (c :: cs) 0 → k (pos + 0) ((c :: cs).drop 0) = none) := by
      rw [RepOk_zero]
      by_cases hlo : lo = 0 <;> simp [hlo]
    unfold matchRep
    by_cases hc : cls c = true ∧ hi ≠ some 0
    · rw [if_pos hc]
      have hrec := ih (lo - 1) (hi.map (· - 1)) (pos + 1)
      cases hm : matchRep cls k (lo - 1) (hi.map (· - 1)) (pos + 1) cs with
      | some r =>
        simp only [false_iff, not_forall, reduceCtorEq]
        have : ¬ ∀ n, RepOk cls (lo - 1) (hi.map (· - 1)) cs n →
            k (pos + 1 + n) (cs.drop n) = none := by
          rw [← hrec, hm]; simp
        simp only [not_forall] at this
        obtain ⟨n, hn, hk⟩ := this
        refine ⟨n + 1, (RepOk_succ _ _ _ _ _ _).mpr ⟨hc, hn⟩, ?_⟩
        have e : pos + (n + 1) = pos + 1 + n := by omega
        rw [e]; simpa using hk
      | none =>
        rw [hm] at hrec
        have hall := hrec.mp rfl
        simp only
        rw [hzero]
        constructor
        · intro h0 n hn
          cases n with
          | zero => exact h0 hn
          | succ n =>
            have := hall n ((RepOk_succ _ _ _ _ _ _).mp hn).2
            have e : pos + (n + 1) = pos + 1 + n := by omega
            rw [e]; simpa using this
        · intro h hn; exact h 0 hn
    · rw [if_neg hc, hzero]
      constructor
      · intro h0 n hn
        cases n with
        | zero => exact h0 hn
        | succ n => exact absurd ((RepOk_succ _ _ _ _ _ _).mp hn).1 hc
      · intro h hn; exact h 0 hn

/-- What a greedy repetition followed by `k` returns is what `k` returns after
the longest run after which it succeeds. -/
theorem matchRep_eq_some {β : Type} (cls : Char → Bool) (k : Nat → GoString → Option β)
    (lo : Nat) (hi : Option Nat) (pos : Nat) (s : GoString) (r : β)
    (h : matchRep cls k lo hi pos s = some r) :
    ∃ n, RepOk cls lo hi s n ∧ k (pos + n) (s.drop n) = some r ∧
      ∀ m, n < m → RepOk cls lo hi s m → k (pos + m) (s.drop m) = none := by
  induction s generalizing lo hi pos with
  | nil =>
    simp only [matchRep] at h
    split at h
    · rename_i hlo
      refine ⟨0, (RepOk_nil _ _ _ _).mpr ⟨rfl, hlo⟩, by simpa using h, ?_⟩
      intro m hm hok
      have := ((RepOk_nil _ _ _ _).mp hok).1
      omega
    · cases h
  | cons c cs ih =>
    have hzero : (if lo = 0 then k pos (c :: cs) else none) = some r →
        RepOk cls lo hi (c :: cs) 0 ∧ k (pos + 0) ((c :: cs).drop 0) = some r := by
      intro h0
      split at h0
      · rename_i hlo
        exact ⟨(RepOk_zero _ _ _ _).mpr hlo, by simpa using h0⟩
      · cases h0
    unfold matchRep at h
    by_cases hc : cls c = true ∧ hi ≠ some 0
    · rw [if_pos hc] at h
      cases hm : matchRep cls k (lo - 1) (hi.map (· - 1)) (pos + 1) cs with
      | some r' =>
        rw [hm] at h
        simp only [Option.some.injEq] at h
        subst h
        obtain ⟨n, hn, hk, hmax⟩ := ih _ _ _ hm
        refine ⟨n + 1, (RepOk_succ _ _ _ _ _ _).mpr ⟨hc, hn⟩, ?_, ?_⟩
        · have e : pos + (n + 1) = pos + 1 + n := by omega
          rw [e]; simpa using hk
        · intro m hlt hok
          cases m with
          | zero => omega
          | succ m =>
            have := hmax m (by omega) ((RepOk_succ _ _ _ _ _ _).mp hok).2
            have e : pos + (m + 1) = pos + 1 + m := by omega
            rw [e]; simpa using this
      | none =>
        rw [hm] at h
        obtain ⟨h0, hk⟩ := hzero h
        refine ⟨0, h0, hk, ?_⟩
        intro m hlt hok
        cases m with
        | zero => omega
        | succ m =>
          have := (matchRep_eq_none cls k _ _ _ _).mp hm m ((RepOk_succ _ _ _ _ _ _).mp hok).2
          have e : pos + (m + 1) = pos + 1 + m := by omega
          rw [e]; simpa using this
    · rw [if_neg hc] at h
      obtain ⟨h0, hk⟩ := hzero h
      refine ⟨0, h0, hk, ?_⟩
      intro m hlt hok
      cases m with
      | zero => omega
      | succ m => exact absurd ((RepOk_succ _ _ _ _ _ _).mp hok).1 hc

/-- If `k` succeeds after a run the repetition may consume and fails after
every longer one, the greedy repetition followed by `k` returns what `k`
returns there. -/
theorem matchRep_of_longest {β : Type} (cls : Char → Bool) (k : Nat → GoString → Option β)
    (lo : Nat) (hi : Option Nat) (pos : Nat) (s : GoString) (r : β) (n : Nat)
    (hn : RepOk cls lo hi s n) (hk : k (pos + n) (s.drop n) = some r)
    (hmax : ∀ m, n < m → RepOk cls lo hi s m → k (pos + m) (s.drop m) = none) :
    matchRep cls k lo hi pos s = some r := by
  cases hm : matchRep cls k lo hi pos s with
  | none =>
    have := (matchRep_eq_none cls k lo hi pos s).mp hm n hn
    rw [hk] at this; cases this
  | some r' =>
    obtain ⟨n', hn', hk', hmax'⟩ := matchRep_eq_some cls k lo hi pos s r' hm
    rcases Nat.lt_trichotomy n n' with hlt | heq | hgt
    · have := hmax n' hlt hn'
      rw [hk'] at this; cases this
    · subst heq
      rw [hk] at hk'; exact hk'.symm ▸ rfl
    · have := hmax' n hgt hn
      rw [hk] at this; cases this

/-! ### Validity parser: the match on a well-formed line -/

theorem run_cat (a b : Regex) (pos : Nat) (s : GoString) (caps : List GoString)
    (k : Nat → GoString → List GoString → Option (List GoString)) :
    (Regex.cat a b).run pos s caps k = a.run pos s caps (fun p t c => b.run p t c k) := rfl

theorem run_group (i : Nat) (a : Regex) (pos : Nat) (s : GoString) (caps : List GoString)
    (k : Nat → GoString → List GoString → Option (List GoString)) :
    (Regex.group i a).run pos s caps k =
      a.run pos s caps (fun p t c => k p t (c.set i (s.take (p - pos)))) := rfl

theorem run_bot (s : GoString) (caps : List GoString)
    (k : Nat → GoString → List GoString → Option (List GoString)) :
    Regex.bot.run 0 s caps k = k 0 s caps := by
  simp [Regex.run]

theorem run_eot_nil (pos : Nat) (caps : List GoString)
    (k : Nat → GoString → List GoString → Option (List GoString)) :
    Regex.eot.run pos [] caps k = k pos [] caps := by
  simp [Regex.run]

theorem run_lit_append (l s : GoString) (pos : Nat) (caps : List GoString)
    (k : Nat → GoString → List GoString → Option (List GoString)) :
    (Regex.lit l).run pos (l ++ s) caps k = k (pos + l.length) s caps := by
  have hp : l.isPrefixOf (l ++ s) = true := by
    rw [List.isPrefixOf_iff_prefix]; exact List.prefix_append _ _
  simp [Regex.run, hp]

theorem RepOk_self (cls : Char → Bool) (lo : Nat) (hi : Option Nat) (w s : GoString)
    (hw : ∀ c ∈ w, cls c = true) (hlo : lo ≤ w.length) (hhi : ∀ m, hi = some m → w.length ≤ m) :
    RepOk cls lo hi (w ++ s) w.length :=
  ⟨by simp, hlo, hhi, by rw [List.take_left]; exact hw⟩

/-- A repetition with an upper bound, on a run of exactly that many bytes of
the class: the run is consumed whole when the rest of the pattern succeeds
after it. -/
theorem run_rep_exact (cls : Char → Bool) (lo n : Nat) (w s : GoString) (pos : Nat)
    (caps r : List GoString) (k : Nat → GoString → List GoString → Option (List GoString))
    (hw : ∀ c ∈ w, cls c = true) (hn : w.length = n) (hlo : lo ≤ n)
    (hk : k (pos + n) s caps = some r) :
    (Regex.rep cls lo (some n)).run pos (w ++ s) caps k = some r := by
  subst hn
  rw [Regex.run]
  refine matchRep_of_longest cls _ lo _ pos (w ++ s) r w.length
    (RepOk_self cls lo _ w s hw hlo (fun m hm => by simp at hm; omega)) ?_ ?_
  · rw [List.drop_left]; exact hk
  · intro m hlt hok
    have := hok.2.2.1 w.length rfl
    omega

/-- A repetition without upper bound, on a run of bytes of the class that is
followed by a byte outside the class (or by nothing): the run is consumed whole
when the rest of the pattern succeeds after it. -/
theorem run_rep_until (cls : Char → Bool) (lo : Nat) (w s : GoString) (pos : Nat)
    (caps r : List GoString) (k : Nat → GoString → List GoString → Option (List GoString))
    (hw : ∀ c ∈ w, cls c = true) (hlo : lo ≤ w.length)
    (hnext : ∀ c ∈ s.head?, cls c = false)
    (hk : k (pos + w.length) s caps = some r) :
    (Regex.rep cls lo none).run pos (w ++ s) caps k = some r := by
  rw [Regex.run]
  refine matchRep_of_longest cls _ lo _ pos (w ++ s) r w.length
    (RepOk_self cls lo _ w s hw hlo (fun m hm => by simp at hm)) ?_ ?_
  · rw [List.drop_left]; exact hk
  · intro m hlt hok
    exfalso
    obtain ⟨hm, _, _, hall⟩ := hok
    cases s with
    | nil => simp at hm; omega
    | cons c cs =>
      have hc : c ∈ (w ++ c :: cs).take m := by
        rw [List.take_append_eq_append_take]
        have : m - w.length = (m - w.length - 1) + 1 := by omega
        rw [this, List.take_succ_cons]
        simp
      have := hnext c (by simp)
      rw [hall c hc] at this
      cases this

/-- The tail `.*(\d{4,6})$` of the validity pattern on a text that ends in
four digits and has no newline before them: the `.*` takes everything but the
four digits and the group is these four digits. -/
theorem run_dotStar_lastGroup (X D : GoString) (pos : Nat) (caps r : List GoString)
    (k : Nat → GoString → List GoString → Option (List GoString))
    (hX : '\n' ∉ X) (hD : ∀ c ∈ D, c.isDigit = true) (hlen : D.length = 4)
    (hk : k (pos + X.length + 4) [] (caps.set 4 D) = some r) :
    (Regex.cat (.rep clsDot 0 none) (.cat (.group 4 (.rep clsDigit 4 (some 6))) .eot)).run
      pos (X ++ D) caps k = some r := by
  rw [run_cat, Regex.run]
  refine matchRep_of_longest clsDot _ 0 none pos (X ++ D) r X.length
    (RepOk_self clsDot 0 none X D ((clsDot_all_iff X).mpr hX) (Nat.zero_le _)
      (fun m hm => by simp at hm)) ?_ ?_
  · rw [List.drop_left]
    simp only [run_cat, run_group]
    rw [Regex.run]
    refine matchRep_of_longest clsDigit _ 4 (some 6) _ D r 4 ?_ ?_ ?_
    · refine ⟨by omega, le_refl _, fun m hm => by simp at hm; omega, ?_⟩
      intro c hc; exact hD c (List.mem_of_mem_take hc)
    · have hdrop : D.drop 4 = [] := by rw [← hlen]; exact List.drop_length D
      have htake : D.take (pos + X.length + 4 - (pos + X.length)) = D := by
        have : pos + X.length + 4 - (pos + X.length) = D.length := by omega
        rw [this]; exact List.take_length D
      simp only [hdrop, run_eot_nil, htake]
      exact hk
    · intro m hlt hok
      have := hok.1
      omega
  · intro m hlt hok
    simp only [run_cat, run_group]
    rw [Regex.run, matchRep_eq_none]
    intro n hn
    exfalso
    have h1 := hn.1
    have h2 := hn.2.1
    have h3 := hok.1
    simp only [List.length_drop, List.length_append] at h1 h3
    omega

theorem clsSpace_of_isDigit (c : Char) (h : c.isDigit = true) : clsSpace c = false := by
  rw [isDigit_iff] at h
  unfold clsSpace
  simp only [decide_eq_false_iff_not, not_or]
  refine ⟨?_, ?_, ?_, ?_, ?_⟩ <;> (rintro rfl; revert h; decide)

theorem head?_append_of_ne_nil (a b : GoString) (h : a ≠ []) : (a ++ b).head? = a.head? := by
  cases a with
  | nil => exact absurd rfl h
  | cons x xs => rfl

/-- The match of the validity pattern on a line of the expected form: the whole
line, the three stamps and the last four digits. -/
theorem vexp_search_of_form (ws1 A ws2 ws3 B C X D : GoString)
    (hws1 : ws1 ≠ [] ∧ ∀ c ∈ ws1, clsSpace c = true)
    (hA : A.length = 6 ∧ ∀ c ∈ A, c.isDigit = true)
    (hws2 : ws2 ≠ [] ∧ ∀ c ∈ ws2, clsSpace c = true)
    (hws3 : ws3 ≠ [] ∧ ∀ c ∈ ws3, clsSpace c = true)
    (hB : B.length = 4 ∧ ∀ c ∈ B, c.isDigit = true)
    (hC : C.length = 4 ∧ ∀ c ∈ C, c.isDigit = true)
    (hX : '\n' ∉ X)
    (hD : D.length = 4 ∧ ∀ c ∈ D, c.isDigit = true) :
    vexp.search 0 ("VALID".toList ++ ws1 ++ A ++ "Z".toList ++ ws2 ++ "FOR USE".toList ++ ws3 ++
        B ++ "-".toList ++ C ++ "Z".toList ++ X ++ D) =
      some ["VALID".toList ++ ws1 ++ A ++ "Z".toList ++ ws2 ++ "FOR USE".toList ++ ws3 ++
        B ++ "-".toList ++ C ++ "Z".toList ++ X ++ D, A, B, C, D] := by
  have hAne : A ≠ [] := by intro h; rw [h] at hA; simp at hA
  have hBne : B ≠ [] := by intro h; rw [h] at hB; simp at hB
  have hlen1 : 1 ≤ ws1.length := List.length_pos.mpr hws1.1
  have hlen2 : 1 ≤ ws2.length := List.length_pos.mpr hws2.1
  have hlen3 : 1 ≤ ws3.length := List.length_pos.mpr hws3.1
  unfold vexp
  simp only [Regex.seq]
  rw [search_bot_cat, Regex.matchAt]
  generalize hline : "VALID".toList ++ ws1 ++ A ++ "Z".toList ++ ws2 ++ "FOR USE".toList ++ ws3 ++
        B ++ "-".toList ++ C ++ "Z".toList ++ X ++ D = line
  have hline' : line = "VALID".toList ++ (ws1 ++ (A ++ ("Z".toList ++ (ws2 ++ ("FOR USE".toList ++
      (ws3 ++ (B ++ ("-".toList ++ (C ++ ("Z".toList ++ (X ++ D))))))))))) := by
    rw [← hline]; simp only [List.append_assoc]
  have hll : line.length = 5 + ws1.length + 6 + 1 + ws2.length + 7 + ws3.length + 4 + 1 + 4 + 1 +
      X.length + 4 := by
    rw [hline']; simp [hA.1, hB.1, hC.1, hD.1]; omega
  conv_lhs => rw [hline']
  rw [run_cat, run_bot, run_cat, run_lit_append, run_cat]
  refine run_rep_until clsSpace 1 ws1 _ _ _ _ _ hws1.2 hlen1 ?_ ?_
  · rw [head?_append_of_ne_nil A _ hAne]
    intro c hc; exact clsSpace_of_isDigit c (hA.2 c (List.mem_of_mem_head? hc))
  rw [run_cat, run_group]
  refine run_rep_exact clsDigit 6 6 A _ _ _ _ _ hA.2 hA.1 (le_refl _) ?_
  rw [run_cat, run_lit_append, run_cat]
  refine run_rep_until clsSpace 1 ws2 _ _ _ _ _ hws2.2 hlen2 ?_ ?_
  · intro c hc
    have : c = 'F' := by simpa using hc.symm
    subst this; decide
  rw [run_cat, run_lit_append, run_cat]
  refine run_rep_until clsSpace 1 ws3 _ _ _ _ _ hws3.2 hlen3 ?_ ?_
  · rw [head?_append_of_ne_nil B _ hBne]
    intro c hc; exact clsSpace_of_isDigit c (hB.2 c (List.mem_of_mem_head? hc))
  rw [run_cat, run_group]
  refine run_rep_exact clsDigit 4 4 B _ _ _ _ _ hB.2 hB.1 (le_refl _) ?_
  rw [run_cat, run_lit_append, run_cat, run_group]
  refine run_rep_exact clsDigit 4 4 C _ _ _ _ _ hC.2 hC.1 (le_refl _) ?_
  rw [run_cat, run_lit_append]
  refine run_dotStar_lastGroup X D _ _ _ _ hX hD.2 hD.1 ?_
  simp only [Nat.add_sub_cancel_left, List.take_left' hA.1, List.take_left' hB.1,
    List.take_left' hC.1]
  rw [← hline', List.take_of_length_le (by rw [hll]; simp)]
  rfl

/-- What `ExtractValidLineInfo` returns when the pattern matched with the five
texts `groups`. -/
theorem ExtractValidLineInfo_of_search (line whole a b c d : GoString)
    (h : vexp.search 0 line = some [whole, a, b, c, d]) :
    ExtractValidLineInfo line =
      .ok { Valid := a, ForUseFrom := b, ForUseTo := c, NegAbove := ParseInt d } := by
  simp [ExtractValidLineInfo, FindStringSubmatch, h, index]

/-- C15. For every line made of "VALID", white space, six digits `A`, "Z",
white space, "FOR USE", white space, four digits `B`, "-", four digits `C`,
"Z", text without a newline, and 4 to 6 final digits, `ExtractValidLineInfo`
returns `Valid = A`, `ForUseFrom = B` and `ForUseTo = C`, the three substrings
of the line as they stand. White space is a non-empty run of bytes of the
pattern's class `\s`. -/
theorem C15_stamps_verbatim (ws1 A ws2 ws3 B C text D : GoString)
    (hws1 : ws1 ≠ [] ∧ ∀ c ∈ ws1, clsSpace c = true)
    (hA : A.length = 6 ∧ ∀ c ∈ A, c.isDigit = true)
    (hws2 : ws2 ≠ [] ∧ ∀ c ∈ ws2, clsSpace c = true)
    (hws3 : ws3 ≠ [] ∧ ∀ c ∈ ws3, clsSpace c = true)
    (hB : B.length = 4 ∧ ∀ c ∈ B, c.isDigit = true)
    (hC : C.length = 4 ∧ ∀ c ∈ C, c.isDigit = true)
    (htext : '\n' ∉ text)
    (hD : (4 ≤ D.length ∧ D.length ≤ 6) ∧ ∀ c ∈ D, c.isDigit = true) :
    ∃ info, ExtractValidLineInfo ("VALID".toList ++ ws1 ++ A ++ "Z".toList ++ ws2 ++
        "FOR USE".toList ++ ws3 ++ B ++ "-".toList ++ C ++ "Z".toList ++ text ++ D) = .ok info ∧
      info.Valid = A ∧ info.ForUseFrom = B ∧ info.ForUseTo = C := by
  have hsplit : D = D.take (D.length - 4) ++ D.drop (D.length - 4) :=
    (List.take_append_drop _ _).symm
  have hX : '\n' ∉ text ++ D.take (D.length - 4) := by
    intro hmem
    rcases List.mem_append.mp hmem with h | h
    · exact htext h
    · have := hD.2 _ (List.mem_of_mem_take h)
      revert this; decide
  have hD4 : (D.drop (D.length - 4)).length = 4 ∧ ∀ c ∈ D.drop (D.length - 4), c.isDigit = true :=
    ⟨by rw [List.length_drop]; omega, fun c hc => hD.2 c (List.mem_of_mem_drop hc)⟩
  have hsearch := vexp_search_of_form ws1 A ws2 ws3 B C (text ++ D.take (D.length - 4))
    (D.drop (D.length - 4)) hws1 hA hws2 hws3 hB hC hX hD4
  have hline : "VALID".toList ++ ws1 ++ A ++ "Z".toList ++ ws2 ++ "FOR USE".toList ++ ws3 ++
      B ++ "-".toList ++ C ++ "Z".toList ++ (text ++ D.take (D.length - 4)) ++
      D.drop (D.length - 4) =
      "VALID".toList ++ ws1 ++ A ++ "Z".toList ++ ws2 ++ "FOR USE".toList ++ ws3 ++
      B ++ "-".toList ++ C ++ "Z".toList ++ text ++ D := by
    conv_rhs => rw [hsplit]
    simp only [List.append_assoc]
  rw [hline] at hsearch
  exact ⟨_, ExtractValidLineInfo_of_search _ _ _ _ _ _ hsearch, rfl, rfl, rfl⟩

/-- C15, on the validity line of the specification's scenario. -/
theorem C15_stamps_verbatim_witness :
    ∃ info, ExtractValidLineInfo ("VALID".toList ++ " ".toList ++ "151200".toList ++ "Z".toList ++
        " ".toList ++ "FOR USE".toList ++ " ".toList ++ "1300".toList ++ "-".toList ++
        "2400".toList ++ "Z".toList ++
        " FCST BASED ON 151200Z DATA VALID 151800Z FOR USE NEG ABV ".toList ++
        "12000".toList) = .ok info ∧
      info.Valid = "151200".toList ∧ info.ForUseFrom = "1300".toList ∧
      info.ForUseTo = "2400".toList :=
  C15_stamps_verbatim " ".toList "151200".toList " ".toList " ".toList "1300".toList
    "2400".toList " FCST BASED ON 151200Z DATA VALID 151800Z FOR USE NEG ABV ".toList
    "12000".toList (by decide) (by decide) (by decide) (by decide) (by decide) (by decide)
    (by decide) (by decide)

/-! ### Validity parser: what the last group holds on any matching line -/

/-- When a pattern followed by `k` succeeds, `k` was handed a final part of the
text and as many captures as there were, and returned the result. -/
theorem run_some_suffix (re : Regex) (pos : Nat) (s : GoString) (caps : List GoString)
    (k : Nat → GoString → List GoString → Option (List GoString)) (r : List GoString)
    (h : re.run pos s caps k = some r) :
    ∃ p' s' caps', s' <:+ s ∧ caps'.length = caps.length ∧ k p' s' caps' = some r := by
  induction re generalizing pos s caps k with
  | bot =>
    simp only [Regex.run] at h
    split at h
    · exact ⟨_, _, _, List.suffix_refl _, rfl, h⟩
    · cases h
  | eot =>
    simp only [Regex.run] at h
    split at h
    · exact ⟨_, _, _, List.suffix_refl _, rfl, h⟩
    · cases h
  | lit l =>
    simp only [Regex.run] at h
    split at h
    · exact ⟨_, _, _, List.drop_suffix _ _, rfl, h⟩
    · cases h
  | rep cls lo hi =>
    simp only [Regex.run] at h
    obtain ⟨n, _, hk, _⟩ := matchRep_eq_some cls _ lo hi pos s r h
    exact ⟨_, _, _, List.drop_suffix _ _, rfl, hk⟩
  | group i a ih =>
    rw [run_group] at h
    obtain ⟨p', s', caps', hs, hl, hk⟩ := ih _ _ _ _ h
    exact ⟨p', s', _, hs, by rw [List.length_set, hl], hk⟩
  | cat a b iha ihb =>
    rw [run_cat] at h
    obtain ⟨p', s', caps', hs, hl, hk⟩ := iha _ _ _ _ h
    obtain ⟨p'', s'', caps'', hs', hl', hk'⟩ := ihb _ _ _ _ hk
    exact ⟨p'', s'', caps'', hs'.trans hs, hl'.trans hl, hk'⟩

/-- The same for the first part of a concatenation: the second part was run on
a final part of the text. -/
theorem run_cat_some_suffix (a b : Regex) (pos : Nat) (s : GoString) (caps : List GoString)
    (k : Nat → GoString → List GoString → Option (List GoString)) (r : List GoString)
    (h : (Regex.cat a b).run pos s caps k = some r) :
    ∃ p' s' caps', s' <:+ s ∧ caps'.length = caps.length ∧ b.run p' s' caps' k = some r := by
  rw [run_cat] at h
  exact run_some_suffix a pos s caps _ r h

/-- The tail `.*(\d{4,6})$` of the validity pattern, whenever it matches: the
text ends in four digits, and the result is the captures with these four digits
as group 4 and some text as group 0. -/
theorem run_dotStar_lastGroup_some (s : GoString) (pos : Nat) (caps r : List GoString)
    (whole : Nat → GoString)
    (h : (Regex.cat (.rep clsDot 0 none) (.cat (.group 4 (.rep clsDigit 4 (some 6))) .eot)).run
      pos s caps (fun p _ c => some (c.set 0 (whole p))) = some r) :
    ∃ x y, x <:+ s ∧ x.length = 4 ∧ (∀ c ∈ x, c.isDigit = true) ∧
      r = (caps.set 4 x).set 0 y := by
  rw [run_cat, Regex.run] at h
  obtain ⟨n, hn, hk, hmax⟩ := matchRep_eq_some clsDot _ 0 none pos s r h
  simp only [run_cat, run_group] at hk
  rw [Regex.run] at hk
  obtain ⟨n4, hn4, hk4, _⟩ := matchRep_eq_some clsDigit _ 4 (some 6) _ _ r hk
  simp only [Regex.run] at hk4
  split at hk4
  swap
  · cases hk4
  rename_i hnil
  obtain ⟨hle4, hlo4, hhi4, hdig4⟩ := hn4
  have hhi4' := hhi4 6 rfl
  have hn4len : n4 = (s.drop n).length := by
    have := congrArg List.length hnil
    simp only [List.length_drop, List.length_nil] at this
    simp only [List.length_drop] at hle4 ⊢
    omega
  have htake : (s.drop n).take n4 = s.drop n := by
    rw [hn4len]; exact List.take_length _
  have hdigits : ∀ c ∈ s.drop n, c.isDigit = true := by
    intro c hc; rw [← htake] at hc; exact hdig4 c hc
  have hlen4 : (s.drop n).length = 4 := by
    by_contra hne
    have hlen : 5 ≤ (s.drop n).length := by omega
    have hlen' := hlen
    simp only [List.length_drop] at hlen'
    have hok : RepOk clsDot 0 none s (n + 1) := by
      refine ⟨by omega, Nat.zero_le _, fun m hm => by simp at hm, ?_⟩
      intro c hc
      rw [List.take_succ] at hc
      rcases List.mem_append.mp hc with hc | hc
      · exact hn.2.2.2 c hc
      · have hget : s[n]? = some c := by
          cases hs : s[n]? with
          | none => rw [hs] at hc; simp at hc
          | some d =>
            rw [hs] at hc
            simp only [Option.toList_some, List.mem_singleton] at hc
            rw [hc]
        have hmem : c ∈ s.drop n := by
          have hlt : n < s.length := by omega
          rw [List.getElem?_eq_getElem hlt] at hget
          simp only [Option.some.injEq] at hget
          rw [← hget, List.drop_eq_getElem_cons hlt]
          exact List.mem_cons_self _ _
        have := hdigits c hmem
        unfold clsDot
        simp only [decide_eq_true_eq]
        rintro rfl
        revert this; decide
    have hnone := hmax (n + 1) (by omega) hok
    simp only [run_cat, run_group] at hnone
    rw [Regex.run, matchRep_eq_none] at hnone
    have hok' : RepOk clsDigit 4 (some 6) (s.drop (n + 1)) (s.drop (n + 1)).length := by
      refine ⟨le_refl _, ?_, ?_, ?_⟩
      · simp only [List.length_drop]; omega
      · intro m hm
        simp only [Option.some.injEq] at hm
        simp only [List.length_drop]
        simp only [List.length_drop] at hn4len
        omega
      · intro c hc
        rw [List.take_length] at hc
        have : c ∈ s.drop n := by
          rw [← List.drop_drop 1 n s] at hc
          exact List.mem_of_mem_drop hc
        exact hdigits c this
    have := hnone _ hok'
    simp [Regex.run] at this
    omega
  refine ⟨s.drop n, whole (pos + n + n4), List.drop_suffix _ _, hlen4, hdigits, ?_⟩
  simp only [Option.some.injEq] at hk4
  rw [← hk4]
  have : pos + n + n4 - (pos + n) = n4 := by omega
  rw [this, htake]

theorem digitsValue_four_le (x : GoString) (hlen : x.length = 4)
    (hx : ∀ c ∈ x, c.isDigit = true) : digitsValue x ≤ 9999 := by
  match x, hlen with
  | [a, b, c, d], _ =>
    have ha := digitVal_le (hx a (by simp))
    have hb := digitVal_le (hx b (by simp))
    have hc := digitVal_le (hx c (by simp))
    have hd := digitVal_le (hx d (by simp))
    simp only [digitsValue, List.foldl_cons, List.foldl_nil]
    omega

/-- On every line the validity pattern matches, the groups found are five
texts, the last of which is the last four bytes of the line, all digits. -/
theorem vexp_search_some (line : GoString) (r : List GoString)
    (h : vexp.search 0 line = some r) :
    ∃ whole a b c, r = [whole, a, b, c, line.drop (line.length - 4)] ∧
      (line.drop (line.length - 4)).length = 4 ∧
      ∀ ch ∈ line.drop (line.length - 4), ch.isDigit = true := by
  unfold vexp at h
  simp only [Regex.seq] at h
  rw [search_bot_cat, Regex.matchAt] at h
  have hcaps : (List.replicate ((Regex.seq [.bot, .lit "VALID".toList, .rep clsSpace 1 none,
    .group 1 (.rep clsDigit 6 (some 6)), .lit "Z".toList, .rep clsSpace 1 none,
    .lit "FOR USE".toList, .rep clsSpace 1 none,
    .group 2 (.rep clsDigit 4 (some 4)), .lit "-".toList,
    .group 3 (.rep clsDigit 4 (some 4)), .lit "Z".toList,
    .rep clsDot 0 none, .group 4 (.rep clsDigit 4 (some 6)), .eot]).numSubexp + 1)
      ([] : GoString)).length = 5 := by decide
  simp only [Regex.seq] at hcaps
  generalize List.replicate _ ([] : GoString) = caps0 at h hcaps
  obtain ⟨p1, s1, c1, hs1, hl1, h⟩ := run_cat_some_suffix _ _ _ _ _ _ _ h
  obtain ⟨p2, s2, c2, hs2, hl2, h⟩ := run_cat_some_suffix _ _ _ _ _ _ _ h
  obtain ⟨p3, s3, c3, hs3, hl3, h⟩ := run_cat_some_suffix _ _ _ _ _ _ _ h
  obtain ⟨p4, s4, c4, hs4, hl4, h⟩ := run_cat_some_suffix _ _ _ _ _ _ _ h
  obtain ⟨p5, s5, c5, hs5, hl5, h⟩ := run_cat_some_suffix _ _ _ _ _ _ _ h
  obtain ⟨p6, s6, c6, hs6, hl6, h⟩ := run_cat_some_suffix _ _ _ _ _ _ _ h
  obtain ⟨p7, s7, c7, hs7, hl7, h⟩ := run_cat_some_suffix _ _ _ _ _ _ _ h
  obtain ⟨p8, s8, c8, hs8, hl8, h⟩ := run_cat_some_suffix _ _ _ _ _ _ _ h
  obtain ⟨p9, s9, c9, hs9, hl9, h⟩ := run_cat_some_suffix _ _ _ _ _ _ _ h
  obtain ⟨p10, s10, c10, hs10, hl10, h⟩ := run_cat_some_suffix _ _ _ _ _ _ _ h
  obtain ⟨p11, s11, c11, hs11, hl11, h⟩ := run_cat_some_suffix _ _ _ _ _ _ _ h
  obtain ⟨p12, s12, c12, hs12, hl12, h⟩ := run_cat_some_suffix _ _ _ _ _ _ _ h
  obtain ⟨x, y, hx, hxlen, hxdig, hr⟩ :=
    run_dotStar_lastGroup_some s12 p12 c12 r (fun p => line.take (p - 0)) h
  have hlen12 : c12.length = 5 := by
    rw [hl12, hl11, hl10, hl9, hl8, hl7, hl6, hl5, hl4, hl3, hl2, hl1, hcaps]
  have hsuf : x <:+ line :=
    hx.trans (hs12.trans (hs11.trans (hs10.trans (hs9.trans (hs8.trans (hs7.trans (hs6.trans
      (hs5.trans (hs4.trans (hs3.trans (hs2.trans hs1)))))))))))
  have hlast : line.drop (line.length - 4) = x := by
    obtain ⟨pre, rfl⟩ := hsuf
    have : (pre ++ x).length - 4 = pre.length := by simp [hxlen]
    rw [this, List.drop_left]
  rw [hlast]
  match c12, hlen12 with
  | [a0, a1, a2, a3, a4], _ =>
    exact ⟨y, a1, a2, a3, by rw [hr]; rfl, hxlen, hxdig⟩

/-- C20. For every line on which the pattern of `ExtractValidLineInfo` matches,
the last four bytes of the line are digits and the returned `NegAbove` is their
decimal value, hence between 0 and 9999: the greedy `.*` before the last group
leaves it the minimum of four digits. (The line need not be free of newlines
for this.) -/
theorem C20_negAbove_is_last_four (line : GoString) (hmatch : MatchString vexp line = true) :
    ∃ info, ExtractValidLineInfo line = .ok info ∧
      (line.drop (line.length - 4)).length = 4 ∧
      (∀ ch ∈ line.drop (line.length - 4), ch.isDigit = true) ∧
      info.NegAbove = (digitsValue (line.drop (line.length - 4)) : Int) ∧
      0 ≤ info.NegAbove ∧ info.NegAbove ≤ 9999 := by
  unfold MatchString at hmatch
  obtain ⟨r, hr⟩ := Option.isSome_iff_exists.mp hmatch
  obtain ⟨whole, a, b, c, hgroups, hlen, hdig⟩ := vexp_search_some line r hr
  rw [hgroups] at hr
  have hbound := digitsValue_four_le _ hlen hdig
  have hne : line.drop (line.length - 4) ≠ [] := by
    intro h; rw [h] at hlen; simp at hlen
  have hparse := ParseInt_digits _ hne hdig (by omega)
  refine ⟨_, ExtractValidLineInfo_of_search _ _ _ _ _ _ hr, hlen, hdig, hparse, ?_, ?_⟩
  · simp only [hparse]; omega
  · simp only [hparse]; omega

/-- C20, on the validity line of the specification's scenario: the last four
bytes are "2000". -/
theorem C20_negAbove_is_last_four_witness :
    ∃ info, ExtractValidLineInfo scenarioValidLine = .ok info ∧
      (scenarioValidLine.drop (scenarioValidLine.length - 4)).length = 4 ∧
      (∀ ch ∈ scenarioValidLine.drop (scenarioValidLine.length - 4), ch.isDigit = true) ∧
      info.NegAbove = (digitsValue (scenarioValidLine.drop (scenarioValidLine.length - 4)) : Int) ∧
      0 ≤ info.NegAbove ∧ info.NegAbove ≤ 9999 :=
  C20_negAbove_is_last_four scenarioValidLine (by decide)

end Avlib
